/-
Verification of the retrieval subsystem (airag): hierarchical chunker,
summarizer fallback, hybrid retriever (detail + summary paths), reranker,
and the chat endpoint's relevance filtering and citation reconciliation.

The Python sources under backend/airag are shallowly embedded: pure string
manipulation is reimplemented over List Char (Python str indexing/len count
code points, as does List Char length), scores are rationals (ℚ stands in
for IEEE floats; no claim here depends on rounding of float arithmetic),
Python dicts keyed by strings with insertion order are association lists,
and Python's stable sorted(...) is List.insertionSort with the matching
relation (insertionSort is stable: an element is inserted before the first
later element it relates to, so equal keys keep encounter order).
External capabilities (the Chroma vector stores, the BM25 scoring library,
the rerank HTTP API, the LLM) are oracle parameters, following the
black-box contracts the code assumes of them.
-/
import Mathlib

/-! ## String primitives

Python string operations reimplemented over List Char so that the kernel
can evaluate them (String.trim / splitOn / replace are not
kernel-reducible). -/

/-- Python str.strip: drop whitespace from both ends. -/
def pyStrip (s : String) : String :=
  ⟨(((s.data.dropWhile Char.isWhitespace).reverse.dropWhile Char.isWhitespace).reverse)⟩

/-- Python s[:n]: take the first n code points. -/
def pyTake (n : Nat) (s : String) : String := ⟨s.data.take n⟩

/-- Split a character list at newline characters, Python str.split of a
single newline: no collapsing, an empty input gives one empty field; acc
holds the reversed current field. -/
def splitLinesAux : List Char → List Char → List (List Char)
  | [], acc => [acc.reverse]
  | c :: rest, acc =>
    if c = '\n' then acc.reverse :: splitLinesAux rest []
    else splitLinesAux rest (c :: acc)

/-- Python text.split of a newline, over String. -/
def pyLines (s : String) : List String := (splitLinesAux s.data []).map String.mk

/-- Python content.replace of CRLF by LF followed by replace of CR by LF,
fused into one left-to-right pass (the passes commute into this scan:
each CRLF is rewritten first at its position, remaining lone CRs after). -/
def normalizeNewlinesAux : List Char → List Char
  | [] => []
  | '\r' :: '\n' :: rest => '\n' :: normalizeNewlinesAux rest
  | '\r' :: rest => '\n' :: normalizeNewlinesAux rest
  | c :: rest => c :: normalizeNewlinesAux rest

/-- Newline normalization as done at the top of create_hierarchical_chunks. -/
def normalizeNewlines (s : String) : String := ⟨normalizeNewlinesAux s.data⟩

/-- Value of a run of decimal digit characters, Python int() on the digits
matched by a decimal-digit regex group. -/
def digitsToNat (ds : List Char) : Nat :=
  ds.foldl (fun n c => n * 10 + (c.toNat - '0'.toNat)) 0

/-! ## Chunker (backend/airag/chunker.py, HierarchicalChunker) -/

namespace Chunker

/-- Semantic unit produced by HierarchicalChunker._parse_semantic_units:
this parser recognizes only headings, list blocks and plain paragraphs. -/
inductive SemUnit where
  | heading (level : Nat) (text : String)
  | listBlock (text : String)
  | paragraph (text : String)
deriving DecidableEq, Repr

/-- Text of a semantic unit. -/
def SemUnit.text : SemUnit → String
  | .heading _ t => t
  | .listBlock t => t
  | .paragraph t => t

/-- Match of the heading regex (one to six hash marks, whitespace, rest)
against an already stripped line; returns the heading level.  On a stripped
line, the regex matches iff the hash run has length 1..6 and is followed by
a whitespace character (the stripped line ends in non-whitespace, so the
required non-empty remainder exists whenever that whitespace does). -/
def headingLevel? (stripped : String) : Option Nat :=
  let hashes := stripped.data.takeWhile (· = '#')
  let h := hashes.length
  if 1 ≤ h ∧ h ≤ 6 then
    match stripped.data.drop h with
    | c :: _ => if c.isWhitespace then some h else none
    | [] => none
  else none

/-- Match of the chunker's list-item regex against a stripped line:
a dash or asterisk, or a digit run and a dot, followed by whitespace. -/
def isListItem (stripped : String) : Bool :=
  match stripped.data with
  | c :: d :: _ =>
    if c = '-' ∨ c = '*' then d.isWhitespace
    else
      let ds := stripped.data.takeWhile Char.isDigit
      match stripped.data.drop ds.length with
      | '.' :: e :: _ => decide (ds ≠ []) && e.isWhitespace
      | _ => false
  | _ => false

/-- State of the line loop in _parse_semantic_units: the text accumulated in
current_unit and the in_list flag (the current unit's type is list exactly
when in_list is set, paragraph otherwise). -/
def closeUnit (cur : String) (inList : Bool) (acc : List SemUnit) : List SemUnit :=
  if pyStrip cur ≠ "" then
    (if inList then SemUnit.listBlock cur else SemUnit.paragraph cur) :: acc
  else acc

/-- Line loop of _parse_semantic_units, accumulator reversed at the end. -/
def parseUnitsGo : List String → String → Bool → List SemUnit → List SemUnit
  | [], cur, inList, acc => (closeUnit cur inList acc).reverse
  | line :: rest, cur, inList, acc =>
    let stripped := pyStrip line
    if stripped = "" then
      parseUnitsGo rest "" false (closeUnit cur inList acc)
    else
      match headingLevel? stripped with
      | some lvl =>
        parseUnitsGo rest "" false (SemUnit.heading lvl stripped :: closeUnit cur inList acc)
      | none =>
        if isListItem stripped then
          if inList then parseUnitsGo rest (cur ++ "\n" ++ stripped) true acc
          else parseUnitsGo rest stripped true (closeUnit cur false acc)
        else
          if inList then parseUnitsGo rest stripped false (closeUnit cur true acc)
          else
            parseUnitsGo rest (if cur ≠ "" then cur ++ "\n" ++ stripped else stripped) false acc

/-- HierarchicalChunker._parse_semantic_units. -/
def parseSemanticUnits (text : String) : List SemUnit :=
  parseUnitsGo (pyLines text) "" false []

/-- The chunker's sentence terminators: the class of combined
Chinese/English sentence-ending punctuation used by _split_by_sentences. -/
def isSentenceEnd (c : Char) : Bool :=
  c = '。' ∨ c = '！' ∨ c = '？' ∨ c = '.' ∨ c = '!' ∨ c = '?'

/-- Scan for the sentence pairing of _split_by_sentences: acc holds the
reversed terminator-free run read so far; on a terminator the run plus the
terminator is emitted as one sentence, and the final (possibly empty) run is
emitted without a terminator. -/
def sentencesAux : List Char → List Char → List (List Char)
  | [], acc => [acc.reverse]
  | c :: rest, acc =>
    if isSentenceEnd c then (acc.reverse ++ [c]) :: sentencesAux rest []
    else sentencesAux rest (c :: acc)

/-- Sentences of a text as paired by the loop of _split_by_sentences over
re.split with a capturing terminator class: each sentence is a maximal
terminator-free run with its following terminator attached, plus a final
(possibly empty) run with no terminator. -/
def sentencesOf (l : List Char) : List (List Char) := sentencesAux l []

/-- Buffer loop of _split_by_sentences: greedily pack consecutive sentences
into chunks of at most chunkSize characters (a single oversized sentence
still becomes its own chunk). -/
def packSentences (chunkSize : Nat) : List (List Char) → List Char → List (List Char)
  | [], buf => if buf = [] then [] else [buf]
  | s :: rest, buf =>
    if buf.length + s.length ≤ chunkSize then packSentences chunkSize rest (buf ++ s)
    else if buf = [] then packSentences chunkSize rest s
    else buf :: packSentences chunkSize rest s

/-- HierarchicalChunker._split_by_sentences. -/
def splitBySentences (text : String) (chunkSize : Nat) : List String :=
  (packSentences chunkSize (sentencesOf text.data) []).map String.mk

/-- Whether a unit is a major heading (level at most 2), which forces a new
large block in _split_into_chunks. -/
def isMajorHeading : SemUnit → Bool
  | .heading lvl _ => lvl ≤ 2
  | _ => false

/-- Unit loop of _split_into_chunks, accumulator reversed at the end. -/
def splitChunksGo (chunkSize : Nat) : List SemUnit → String → List String → List String
  | [], cur, acc =>
    ((if pyStrip cur ≠ "" then [pyStrip cur] else []) ++ acc).reverse
  | u :: rest, cur, acc =>
    if isMajorHeading u ∧ pyStrip cur ≠ "" then
      splitChunksGo chunkSize rest (u.text ++ "\n\n") (pyStrip cur :: acc)
    else if cur.length + u.text.length + 2 ≤ chunkSize then
      splitChunksGo chunkSize rest
        (if cur ≠ "" then cur ++ "\n\n" ++ u.text else u.text) acc
    else
      let acc' := if pyStrip cur ≠ "" then pyStrip cur :: acc else acc
      if u.text.length > chunkSize then
        splitChunksGo chunkSize rest "" ((splitBySentences u.text chunkSize).reverse ++ acc')
      else
        splitChunksGo chunkSize rest u.text acc'

/-- HierarchicalChunker._split_into_chunks: semantic-aware splitting with
the whole text as a single-chunk fallback when nothing was produced. -/
def splitIntoChunks (text : String) (chunkSize : Nat) : List String :=
  let chunks := splitChunksGo chunkSize (parseSemanticUnits text) "" []
  if chunks = [] then [text] else chunks

/-- A hierarchical chunk (models ChunkWithContext together with the three
metadata keys create_hierarchical_chunks adds to the input metadata). -/
structure ChunkWithContext where
  smallChunk : String
  largeChunk : String
  largeChunkIndex : Nat
  smallChunkIndex : Nat
  totalLargeChunks : Nat
  chunkId : String
deriving DecidableEq, Repr

/-- The deterministic chunk id f-string of create_hierarchical_chunks. -/
def mkChunkId (knowledgeId : String) (largeIdx smallIdx : Nat) : String :=
  s!"{knowledgeId}_{largeIdx}_{smallIdx}"

/-- HierarchicalChunker.create_hierarchical_chunks (the metadata argument is
represented by the knowledge_id it carries, the only key the function
reads; the logging is dropped). -/
def createHierarchicalChunks (smallSize largeSize : Nat) (content : String)
    (knowledgeId : String) : List ChunkWithContext :=
  let content := normalizeNewlines content
  let largeChunks := splitIntoChunks content largeSize
  largeChunks.enum.flatMap fun (largeIdx, lc) =>
    (splitIntoChunks lc smallSize).enum.map fun (smallIdx, sc) =>
      { smallChunk := sc
        largeChunk := lc
        largeChunkIndex := largeIdx
        smallChunkIndex := smallIdx
        totalLargeChunks := largeChunks.length
        chunkId := mkChunkId knowledgeId largeIdx smallIdx }

/-- Zero-chunk validation branch of _add_to_indexes
(backend/airag/api/knowledge.py): raises when the chunker returned nothing. -/
def addToIndexesChunkStep (smallSize largeSize : Nat) (content : String)
    (knowledgeId : String) : Except String (List ChunkWithContext) :=
  let chunks := createHierarchicalChunks smallSize largeSize content knowledgeId
  if chunks.isEmpty then Except.error "文档分割失败" else Except.ok chunks

end Chunker

/-! ## Lemmas about the chunker -/

namespace Chunker

theorem splitIntoChunks_ne_nil (text : String) (chunkSize : Nat) :
    splitIntoChunks text chunkSize ≠ [] := by
  unfold splitIntoChunks
  dsimp only
  split
  · simp
  · assumption

theorem createHierarchicalChunks_ne_nil (smallSize largeSize : Nat)
    (content knowledgeId : String) :
    createHierarchicalChunks smallSize largeSize content knowledgeId ≠ [] := by
  unfold createHierarchicalChunks
  dsimp only
  intro h
  have h1 := splitIntoChunks_ne_nil (normalizeNewlines content) largeSize
  rcases hlc : splitIntoChunks (normalizeNewlines content) largeSize with _ | ⟨a, t⟩
  · exact h1 hlc
  · rw [hlc] at h
    simp only [List.enum_cons, List.flatMap_cons, List.append_eq_nil, List.map_eq_nil_iff] at h
    have h2 := splitIntoChunks_ne_nil a smallSize
    rcases h with ⟨h3, -⟩
    rcases hsc : splitIntoChunks a smallSize with _ | ⟨b, u⟩
    · exact h2 hsc
    · rw [hsc] at h3
      simp [List.enum_cons] at h3

/-- The chunk-id sequence determined by a knowledge id and the number of
small chunks inside each successive large chunk. -/
def chunkIdSequence (knowledgeId : String) (smallCounts : List Nat) : List String :=
  smallCounts.enum.flatMap fun p => (List.range p.2).map (mkChunkId knowledgeId p.1)

theorem chunkId_flatMap_aux (smallSize : Nat) (knowledgeId : String) (N : Nat) :
    ∀ (i : Nat) (lcs : List String),
    ((List.enumFrom i lcs).flatMap fun p =>
        (splitIntoChunks p.2 smallSize).enum.map fun q =>
          ({ smallChunk := q.2, largeChunk := p.2, largeChunkIndex := p.1,
             smallChunkIndex := q.1, totalLargeChunks := N,
             chunkId := mkChunkId knowledgeId p.1 q.1 } : ChunkWithContext)).map
      (fun ch => ch.chunkId) =
    (List.enumFrom i (lcs.map fun lc => (splitIntoChunks lc smallSize).length)).flatMap
      fun p => (List.range p.2).map (mkChunkId knowledgeId p.1) := by
  intro i lcs
  induction lcs generalizing i with
  | nil => rfl
  | cons a t ih =>
    simp only [List.map_cons, List.enumFrom_cons, List.flatMap_cons, List.map_append]
    rw [ih (i + 1)]
    congr 1
    rw [List.map_map]
    have h1 : (List.range (splitIntoChunks a smallSize).length).map
        (mkChunkId knowledgeId i) =
        (((splitIntoChunks a smallSize).enum).map Prod.fst).map (mkChunkId knowledgeId i) := by
      rw [List.enum_map_fst]
    rw [h1, List.map_map]
    rfl

end Chunker

/-- C8: Chunking is deterministic: create_hierarchical_chunks is embedded as
a pure function, so two runs on the same content and knowledge_id yield the
same chunk list definitionally; substantively, every produced chunk's
chunk_id is the pure function knowledge_id ++ "_" ++ large index ++ "_" ++
small index of its own metadata indices, and the whole chunk_id sequence is
determined by the knowledge_id together with the per-large-chunk small-chunk
counts, so re-chunking identical content with the same knowledge_id
reproduces the identical chunk_id sequence. -/
theorem c8_chunking_deterministic (smallSize largeSize : Nat)
    (content knowledgeId : String) :
    ((Chunker.createHierarchicalChunks smallSize largeSize content knowledgeId).map
        (fun ch => ch.chunkId) =
      Chunker.chunkIdSequence knowledgeId
        ((Chunker.splitIntoChunks (normalizeNewlines content) largeSize).map
          (fun lc => (Chunker.splitIntoChunks lc smallSize).length))) ∧
    (Chunker.createHierarchicalChunks smallSize largeSize content knowledgeId).all
        (fun ch => ch.chunkId == Chunker.mkChunkId knowledgeId ch.largeChunkIndex ch.smallChunkIndex) = true := by
  constructor
  · unfold Chunker.createHierarchicalChunks Chunker.chunkIdSequence
    dsimp only
    exact Chunker.chunkId_flatMap_aux smallSize knowledgeId _ 0 _
  · rw [List.all_eq_true]
    intro ch hch
    simp only [Chunker.createHierarchicalChunks, List.mem_flatMap, List.mem_map] at hch
    rcases hch with ⟨p, -, q, -, rfl⟩
    simp

/-- C9: For every input content (including empty or whitespace-only text)
create_hierarchical_chunks returns at least one chunk, because
_split_into_chunks falls back to the whole input as a single chunk, and
therefore the zero-chunk validation branch of _add_to_indexes (raising
"文档分割失败") is unreachable: the step always succeeds. -/
theorem c9_chunker_never_empty (smallSize largeSize : Nat)
    (content knowledgeId : String) :
    Chunker.createHierarchicalChunks smallSize largeSize content knowledgeId ≠ [] ∧
    Chunker.addToIndexesChunkStep smallSize largeSize content knowledgeId =
      Except.ok (Chunker.createHierarchicalChunks smallSize largeSize content knowledgeId) := by
  have h := Chunker.createHierarchicalChunks_ne_nil smallSize largeSize content knowledgeId
  refine ⟨h, ?_⟩
  unfold Chunker.addToIndexesChunkStep
  rw [if_neg]
  simp only [List.isEmpty_iff]
  exact h

/-! ## Lemmas about sentence splitting (for C3) -/

namespace Chunker

theorem sentencesAux_ne_nil (l acc : List Char) : sentencesAux l acc ≠ [] := by
  induction l generalizing acc with
  | nil => simp [sentencesAux]
  | cons c rest ih =>
    unfold sentencesAux
    split
    · simp
    · exact ih _

theorem sentencesAux_join (l acc : List Char) :
    (sentencesAux l acc).flatten = acc.reverse ++ l := by
  induction l generalizing acc with
  | nil => simp [sentencesAux]
  | cons c rest ih =>
    unfold sentencesAux
    split
    · simp [ih]
    · rw [ih]
      simp

/-- Concatenating the sentences reproduces the text: re.split with a
captured separator loses nothing and the loop reattaches each terminator. -/
theorem sentencesOf_join (l : List Char) : (sentencesOf l).flatten = l := by
  simpa using sentencesAux_join l []

theorem sentencesAux_shape (l acc : List Char)
    (hacc : ∀ c ∈ acc, ¬ (isSentenceEnd c = true)) :
    ∀ s ∈ sentencesAux l acc, ∀ c ∈ s.dropLast, ¬ (isSentenceEnd c = true) := by
  induction l generalizing acc with
  | nil =>
    intro s hs c hc
    simp only [sentencesAux, List.mem_singleton] at hs
    subst hs
    exact hacc c (by
      have := List.dropLast_sublist acc.reverse
      have h2 := this.mem hc
      exact List.mem_reverse.mp h2)
  | cons a rest ih =>
    intro s hs c hc
    unfold sentencesAux at hs
    by_cases ha : isSentenceEnd a = true
    · rw [if_pos ha] at hs
      rcases List.mem_cons.mp hs with rfl | hs'
      · rw [List.dropLast_concat] at hc
        exact hacc c (List.mem_reverse.mp hc)
      · exact ih [] (by simp) s hs' c hc
    · rw [if_neg ha] at hs
      refine ih (a :: acc) ?_ s hs c hc
      intro d hd
      rcases List.mem_cons.mp hd with rfl | hd'
      · exact ha
      · exact hacc d hd'

theorem sentencesAux_terminated (l acc : List Char) :
    ∀ s ∈ (sentencesAux l acc).dropLast, s.getLast?.any isSentenceEnd = true := by
  induction l generalizing acc with
  | nil => simp [sentencesAux]
  | cons a rest ih =>
    intro s hs
    unfold sentencesAux at hs
    by_cases ha : isSentenceEnd a = true
    · rw [if_pos ha] at hs
      have hne := sentencesAux_ne_nil rest []
      rcases hrest : sentencesAux rest [] with _ | ⟨b, t⟩
      · exact absurd hrest hne
      · rw [hrest, List.dropLast_cons_of_ne_nil (by simp)] at hs
        rcases List.mem_cons.mp hs with rfl | hs'
        · simp [ha]
        · rw [← hrest] at hs'
          exact ih [] s hs'
    · rw [if_neg ha] at hs
      exact ih (a :: acc) s hs

/-- Group-level view of the sentence buffer loop: cons one more sentence
onto the front of the first group. -/
def consFirstGroup (s : List Char) : List (List (List Char)) → List (List (List Char))
  | [] => [[s]]
  | g :: t => (s :: g) :: t

/-- Attach pending buffered text to the front of the first chunk. -/
def prependFirstGroup (buf : List Char) : List (List Char) → List (List Char)
  | [] => [buf]
  | c :: cs => (buf ++ c) :: cs

theorem consFirstGroup_flatten (s : List Char) (gs : List (List (List Char))) :
    (consFirstGroup s gs).flatten = s :: gs.flatten := by
  cases gs <;> simp [consFirstGroup]

theorem consFirstGroup_map_flatten (s : List Char) (gs : List (List (List Char))) :
    (consFirstGroup s gs).map List.flatten = prependFirstGroup s (gs.map List.flatten) := by
  cases gs <;> simp [consFirstGroup, prependFirstGroup]

theorem prependFirstGroup_comp (a b : List Char) (ms : List (List Char)) :
    prependFirstGroup a (prependFirstGroup b ms) = prependFirstGroup (a ++ b) ms := by
  cases ms <;> simp [prependFirstGroup]

theorem prependFirstGroup_nil_left (b : List Char) (ms : List (List Char)) :
    prependFirstGroup [] (prependFirstGroup b ms) = prependFirstGroup b ms := by
  cases ms <;> simp [prependFirstGroup]

theorem packSentences_grouping (chunkSize : Nat) :
    ∀ (ss : List (List Char)) (buf : List Char),
    ∃ gs : List (List (List Char)),
      gs.flatten = ss ∧
      packSentences chunkSize ss buf =
        (prependFirstGroup buf (gs.map List.flatten)).filter (fun c => c ≠ []) := by
  intro ss
  induction ss with
  | nil =>
    intro buf
    refine ⟨[], rfl, ?_⟩
    by_cases hb : buf = [] <;>
      simp [packSentences, prependFirstGroup, hb, List.filter]
  | cons s rest ih =>
    intro buf
    unfold packSentences
    by_cases hfit : buf.length + s.length ≤ chunkSize
    · rw [if_pos hfit]
      obtain ⟨gs', hj, hp⟩ := ih (buf ++ s)
      refine ⟨consFirstGroup s gs', by rw [consFirstGroup_flatten, hj], ?_⟩
      rw [hp, consFirstGroup_map_flatten, prependFirstGroup_comp]
    · rw [if_neg hfit]
      by_cases hb : buf = []
      · rw [if_pos hb]
        obtain ⟨gs', hj, hp⟩ := ih s
        refine ⟨consFirstGroup s gs', by rw [consFirstGroup_flatten, hj], ?_⟩
        rw [hp, consFirstGroup_map_flatten, hb, prependFirstGroup_nil_left]
      · rw [if_neg hb]
        obtain ⟨gs', hj, hp⟩ := ih s
        refine ⟨[] :: consFirstGroup s gs',
          by rw [List.flatten_cons, consFirstGroup_flatten, hj]; rfl, ?_⟩
        simp only [List.map_cons, List.flatten_nil, consFirstGroup_map_flatten]
        have hshape : ∃ c cs, prependFirstGroup s (gs'.map List.flatten) = c :: cs := by
          rcases gs'.map List.flatten with _ | ⟨c, cs⟩
          · exact ⟨s, [], rfl⟩
          · exact ⟨s ++ c, cs, rfl⟩
        obtain ⟨c, cs, hc⟩ := hshape
        rw [hc]
        simp only [prependFirstGroup, List.append_nil]
        rw [List.filter_cons_of_pos (by simpa using hb)]
        rw [hp, hc]

theorem packSentences_join (chunkSize : Nat) :
    ∀ (ss : List (List Char)) (buf : List Char),
    (packSentences chunkSize ss buf).flatten = buf ++ ss.flatten := by
  intro ss
  induction ss with
  | nil =>
    intro buf
    by_cases hb : buf = [] <;> simp [packSentences, hb]
  | cons s rest ih =>
    intro buf
    unfold packSentences
    by_cases hfit : buf.length + s.length ≤ chunkSize
    · rw [if_pos hfit, ih]
      simp
    · rw [if_neg hfit]
      by_cases hb : buf = []
      · rw [if_pos hb, ih, hb]
        simp
      · rw [if_neg hb]
        simp [ih]

end Chunker

namespace Chunker

theorem filter_prependFirstGroup_nil (ms : List (List Char)) :
    (prependFirstGroup [] ms).filter (fun c => c ≠ []) = ms.filter (fun c => c ≠ []) := by
  cases ms <;> simp [prependFirstGroup, List.filter]

end Chunker

/-- C3 counterexample: a fenced code block longer than the target size is
NOT kept intact by this chunker: _parse_semantic_units of chunker.py has no
code-block (or table) unit type, the fence lines become an ordinary
paragraph unit, and the oversized unit is sentence-split at the dot, giving
two chunks that cut the fenced block apart. -/
theorem c3_code_block_not_kept_intact :
    Chunker.splitIntoChunks "```\naaaa.bbbb\n```" 6 = ["```\naaaa.", "bbbb\n```"] ∧
    ("```\naaaa.bbbb\n```" : String).length > 6 := by
  constructor
  · decide
  · decide

/-- C3 amended: in _split_into_chunks an oversized unit is sentence-split at
the combined Chinese/English terminator class with each terminator retained
with its sentence: splitting loses no character, every chunk is the
concatenation of a consecutive block of sentences, terminators occur only
as a sentence's last character, and every sentence except possibly the last
ends in a terminator.  No exception exists for fenced code blocks or
tables: the chunker's parser emits only heading, list and paragraph units
(SemUnit has no other constructor), so oversized code blocks and tables are
sentence-split like any paragraph (see the counterexample). -/
theorem c3_sentence_split_amended (text : String) (chunkSize : Nat) :
    ((Chunker.splitBySentences text chunkSize).map String.data).flatten = text.data ∧
    (∃ gs : List (List (List Char)),
      gs.flatten = Chunker.sentencesOf text.data ∧
      Chunker.splitBySentences text chunkSize =
        ((gs.map List.flatten).filter (fun c => c ≠ [])).map String.mk) ∧
    (Chunker.sentencesOf text.data).all
      (fun s => s.dropLast.all (fun c => ! Chunker.isSentenceEnd c)) = true ∧
    ((Chunker.sentencesOf text.data).dropLast).all
      (fun s => s.getLast?.any Chunker.isSentenceEnd) = true := by
  refine ⟨?_, ?_, ?_, ?_⟩
  · unfold Chunker.splitBySentences
    rw [List.map_map]
    have h1 : (String.data ∘ String.mk) = id := by
      funext l
      rfl
    rw [h1, List.map_id]
    rw [Chunker.packSentences_join]
    simpa using Chunker.sentencesOf_join text.data
  · obtain ⟨gs, hj, hp⟩ :=
      Chunker.packSentences_grouping chunkSize (Chunker.sentencesOf text.data) []
    refine ⟨gs, hj, ?_⟩
    unfold Chunker.splitBySentences
    rw [hp, Chunker.filter_prependFirstGroup_nil]
  · rw [List.all_eq_true]
    intro s hs
    rw [List.all_eq_true]
    intro c hc
    have := Chunker.sentencesAux_shape text.data [] (by simp) s hs c hc
    simp [this]
  · rw [List.all_eq_true]
    intro s hs
    exact Chunker.sentencesAux_terminated text.data [] s hs

/-! ## Summarizer (backend/airag/summarizer.py, DocumentSummarizer)

Its _parse_semantic_units differs from the chunker's: it does recognize
fenced code blocks, tables, images and indented list continuations.  The
LLM is an oracle (String to Option String, none models a raised exception;
the external response stripping happens inside the oracle). -/

namespace Summarizer

/-- Python newline join of raw lines. -/
def pyJoinNL (ls : List String) : String :=
  ⟨List.intercalate ['\n'] (ls.map String.data)⟩

/-- Semantic unit of DocumentSummarizer._parse_semantic_units. -/
inductive SUnit where
  | heading (level : Nat) (text : String)
  | codeBlock (text : String)
  | table (text : String)
  | image (text : String)
  | listBlock (text : String)
  | paragraph (text : String)
deriving DecidableEq, Repr

/-- Text of a summarizer semantic unit. -/
def SUnit.text : SUnit → String
  | .heading _ t => t
  | .codeBlock t => t
  | .table t => t
  | .image t => t
  | .listBlock t => t
  | .paragraph t => t

/-- The units kept whole even when oversized in _split_content. -/
def SUnit.isCodeOrTable : SUnit → Bool
  | .codeBlock _ => true
  | .table _ => true
  | _ => false

/-- line.strip().startswith of a triple backtick fence. -/
def isFenceLine (line : String) : Bool :=
  ['`', '`', '`'].isPrefixOf (pyStrip line).data

/-- line.strip().startswith of a pipe (table row). -/
def isPipeLine (line : String) : Bool :=
  match (pyStrip line).data with
  | '|' :: _ => true
  | _ => false

/-- Whether the character list contains an adjacent right-bracket
left-paren pair, the split point the image regex needs. -/
def hasBracketParen : List Char → Bool
  | ']' :: '(' :: _ => true
  | _ :: rest => hasBracketParen rest
  | [] => false

/-- Match of the image regex (bang, bracketed run, parenthesized run,
anchored both ends) against a stripped line: it matches iff the line starts
with bang-bracket, ends with a closing paren, and a bracket-paren split
point occurs before that final paren. -/
def isImageLine (stripped : String) : Bool :=
  match stripped.data with
  | '!' :: '[' :: rest =>
    match rest.getLast? with
    | some ')' => hasBracketParen rest.dropLast
    | _ => false
  | _ => false

/-- Match of the summarizer's list-item regex against the raw line:
optional leading whitespace, a dash or asterisk or a digit run and dot,
then at least one whitespace character. -/
def isListLine (line : String) : Bool :=
  let rest := line.data.dropWhile Char.isWhitespace
  match rest with
  | c :: d :: _ =>
    if c = '-' ∨ c = '*' then d.isWhitespace
    else
      let ds := rest.takeWhile Char.isDigit
      match rest.drop ds.length with
      | '.' :: e :: _ => decide (ds ≠ []) && e.isWhitespace
      | _ => false
  | _ => false

/-- Whether a raw line starts with two spaces (list continuation). -/
def startsTwoSpaces (line : String) : Bool :=
  [' ', ' '].isPrefixOf line.data

/-- Continuation loop of the summarizer's list-block consumption, entered
after the first list line was consumed (so the Python list_lines buffer is
non-empty throughout): keep list items and indented continuations, keep a
blank line only when a list item follows it directly, stop otherwise. -/
def takeListLines : List String → (List String × List String)
  | [] => ([], [])
  | cur :: rest =>
    if isListLine cur ∨ startsTwoSpaces cur then
      let p := takeListLines rest
      (cur :: p.1, p.2)
    else if pyStrip cur = "" then
      match rest with
      | next :: _ =>
        if isListLine next then
          let p := takeListLines rest
          (cur :: p.1, p.2)
        else ([], cur :: rest)
      | [] => ([], [cur])
    else ([], cur :: rest)

/-- Paragraph consumption: collect lines until a blank line or any special
structure (fence, table row, heading prefix, list item, image). -/
def takeParaLines : List String → (List String × List String)
  | [] => ([], [])
  | cur :: rest =>
    if pyStrip cur = "" ∨ isFenceLine cur ∨ isPipeLine cur ∨
        (Chunker.headingLevel? (pyStrip cur)).isSome ∨ isListLine cur ∨
        isImageLine (pyStrip cur) then
      ([], cur :: rest)
    else
      let p := takeParaLines rest
      (cur :: p.1, p.2)

/-- Main loop of DocumentSummarizer._parse_semantic_units.  The Python
while loop advances an index; here the consumed suffixes recurse with a
fuel counter bounded below by the line count (each step consumes at least
one line, so the fuel is never exhausted on the initial call). -/
def parseUnitsGo : Nat → List String → List SUnit
  | 0, _ => []
  | _ + 1, [] => []
  | fuel + 1, line :: rest =>
    let stripped := pyStrip line
    if stripped = "" then parseUnitsGo fuel rest
    else if isFenceLine line then
      match rest.span (fun l => ¬ isFenceLine l) with
      | (body, []) => SUnit.codeBlock (pyJoinNL (line :: body)) :: parseUnitsGo fuel []
      | (body, closing :: rest') =>
        SUnit.codeBlock (pyJoinNL (line :: body ++ [closing])) :: parseUnitsGo fuel rest'
    else if isPipeLine line then
      match rest.span isPipeLine with
      | (tbl, rest') => SUnit.table (pyJoinNL (line :: tbl)) :: parseUnitsGo fuel rest'
    else
      match Chunker.headingLevel? stripped with
      | some lvl => SUnit.heading lvl stripped :: parseUnitsGo fuel rest
      | none =>
        if isImageLine stripped then SUnit.image stripped :: parseUnitsGo fuel rest
        else if isListLine line then
          match takeListLines rest with
          | (cont, rest') =>
            SUnit.listBlock (pyStrip (pyJoinNL (line :: cont))) :: parseUnitsGo fuel rest'
        else
          match takeParaLines (line :: rest) with
          | (para, rest') =>
            (if para ≠ [] then [SUnit.paragraph (pyStrip (pyJoinNL para))] else []) ++
              parseUnitsGo fuel rest'

/-- DocumentSummarizer._parse_semantic_units. -/
def parseSemanticUnits (content : String) : List SUnit :=
  parseUnitsGo ((pyLines content).length + 1) (pyLines content)

/-- Sentence pairing of _split_long_paragraph: the capture class there is a
run (one or more) of terminators, and the loop glues each terminator run to
the preceding piece.  acc holds the reversed current sentence; inRun marks
that acc currently ends inside a terminator run. -/
def sentencesRunsAux : List Char → List Char → Bool → List (List Char)
  | [], acc, _ => [acc.reverse]
  | c :: rest, acc, inRun =>
    if Chunker.isSentenceEnd c then sentencesRunsAux rest (c :: acc) true
    else if inRun then acc.reverse :: sentencesRunsAux rest [c] false
    else sentencesRunsAux rest (c :: acc) false

/-- Buffer loop of _split_long_paragraph: pack stripped sentences with a
single-space separator budget, stripping each emitted chunk. -/
def packSents (chunkSize : Nat) : List String → String → List String
  | [], cur => if pyStrip cur ≠ "" then [pyStrip cur] else []
  | s :: rest, cur =>
    if cur.length + s.length + 1 ≤ chunkSize then
      packSents chunkSize rest (cur ++ s ++ " ")
    else
      (if pyStrip cur ≠ "" then [pyStrip cur] else []) ++ packSents chunkSize rest (s ++ " ")

/-- DocumentSummarizer._split_long_paragraph. -/
def splitLongParagraph (chunkSize : Nat) (para : String) : List String :=
  let sents := ((sentencesRunsAux para.data [] false).map (fun l => pyStrip ⟨l⟩)).filter
    (fun s => s ≠ "")
  let chunks := packSents chunkSize sents ""
  if chunks = [] then [para] else chunks

/-- Unit loop of DocumentSummarizer._split_content (accumulator reversed at
the end).  Note the current block is only reset when its stripped text is
non-empty, exactly as in the source. -/
def splitContentGo (chunkSize : Nat) : List SUnit → String → List String → List String
  | [], cur, acc => ((if pyStrip cur ≠ "" then [pyStrip cur] else []) ++ acc).reverse
  | u :: rest, cur, acc =>
    if (match u with | .heading lvl _ => lvl ≤ 2 | _ => false : Bool) ∧ pyStrip cur ≠ "" then
      splitContentGo chunkSize rest (u.text ++ "\n\n") (pyStrip cur :: acc)
    else if cur.length + u.text.length + 2 ≤ chunkSize then
      splitContentGo chunkSize rest (cur ++ u.text ++ "\n\n") acc
    else
      let acc1 := if pyStrip cur ≠ "" then pyStrip cur :: acc else acc
      let cur1 := if pyStrip cur ≠ "" then "" else cur
      if u.text.length ≤ chunkSize then
        splitContentGo chunkSize rest (u.text ++ "\n\n") acc1
      else if u.isCodeOrTable then
        splitContentGo chunkSize rest cur1 (u.text :: acc1)
      else
        let subs := splitLongParagraph chunkSize u.text
        splitContentGo chunkSize rest
          (if subs ≠ [] then subs.getLast! ++ "\n\n" else "")
          (subs.dropLast.reverse ++ acc1)

/-- DocumentSummarizer._split_content with its whole-content fallback. -/
def splitContent (chunkSize : Nat) (content : String) : List String :=
  let chunks := splitContentGo chunkSize (parseSemanticUnits content) "" []
  if chunks = [] then [content] else chunks

/-- Block-level summary record (dataclass ChunkSummary of summarizer.py:
summary text, chunk index, original chunk; the dataclass has no
low-fidelity flag field). -/
structure ChunkSummary where
  summary : String
  chunkIndex : Nat
  originalChunk : String
deriving DecidableEq, Repr

/-- DocumentSummarizer.generate_chunk_summaries: split, summarize each
chunk through the LLM oracle; if anything in the body raises (oracle
returns none), degrade to the single fallback pseudo-summary built from the
first 500 characters (stripped, ellipsis appended when truncated) with the
first chunk_size characters as its original chunk. -/
def generateChunkSummaries (llm : String → Option String) (chunkSize : Nat)
    (content : String) : List ChunkSummary :=
  let chunks := splitContent chunkSize content
  match chunks.mapM llm with
  | some summaries =>
    List.zipWith (fun (p : Nat × String) s => ⟨s, p.1, p.2⟩) chunks.enum summaries
  | none =>
    [⟨pyStrip (pyTake 500 content) ++ (if 500 < content.length then "..." else ""),
      0, pyTake chunkSize content⟩]

theorem splitContent_ne_nil (chunkSize : Nat) (content : String) :
    splitContent chunkSize content ≠ [] := by
  unfold splitContent
  dsimp only
  split
  · simp
  · assumption

theorem mapM_const_none {α β : Type} (l : List α) (h : l ≠ []) :
    l.mapM (fun _ => (none : Option β)) = none := by
  cases l with
  | nil => exact absurd rfl h
  | cons a t => rfl

end Summarizer

/-- C7 counterexample: the degraded pseudo-summary is NOT equal to the
first 500 characters of the raw text: the code strips it (and appends an
ellipsis when the text is longer than 500 characters).  For the two
character document of a space then letter a, complete summarization failure
yields the summary a, while the first 500 characters are the original
space-a text.  Also, ChunkSummary carries no low-fidelity flag field at
all. -/
theorem c7_fallback_not_raw_prefix :
    Summarizer.generateChunkSummaries (fun _ => none) 2000 " a" =
      [⟨"a", 0, " a"⟩] ∧
    pyTake 500 " a" = " a" ∧ ("a" : String) ≠ " a" := by
  refine ⟨by decide, by decide, by decide⟩

/-- C7 amended: when summary generation fails for the whole document (the
LLM oracle fails on every chunk, so the Python try body raises), the
summarizer returns, instead of raising, a single pseudo-summary equal to
the first 500 characters of the raw text STRIPPED of surrounding
whitespace, with an ellipsis appended when the text exceeds 500 characters,
and with the first chunk_size characters as its original chunk; since the
function returns normally, ingestion proceeds.  No low-fidelity flag
exists: ChunkSummary has only summary, chunk_index and original_chunk. -/
theorem c7_summarizer_degrades (chunkSize : Nat) (content : String) :
    Summarizer.generateChunkSummaries (fun _ => none) chunkSize content =
      [⟨pyStrip (pyTake 500 content) ++ (if 500 < content.length then "..." else ""),
        0, pyTake chunkSize content⟩] := by
  unfold Summarizer.generateChunkSummaries
  dsimp only
  rw [Summarizer.mapM_const_none _ (Summarizer.splitContent_ne_nil chunkSize content)]

/-! ## Hybrid retriever (backend/airag/retriever.py, HybridRetriever)

The two Chroma stores and the BM25 scoring library are external: a store
is an oracle list of (document, distance) in the store's rank order for
the query at hand, and similarity_search_with_score is modeled by its
documented contract (up to k results, restricted by the optional
knowledge-id filter).  The BM25 index is an oracle list of
(document, raw score) pairs, mirroring bm25_docs/bm25_metadata plus
get_scores output; none models an unbuilt index. -/

namespace Retriever

/-- A langchain Document: page_content plus the metadata keys this
code base reads or writes (a missing key is none). -/
structure Doc where
  pageContent : String := ""
  name : Option String := none
  knowledgeId : Option String := none
  courseName : Option String := none
  largeChunk : Option String := none
  chunkId : Option String := none
  chunkIndex : Option Nat := none
  originalChunk : Option String := none
  largeChunkIndex : Option Nat := none
  smallChunkIndex : Option Nat := none
  aggregatedChunks : Option Nat := none
  chunkIndices : Option (List Nat) := none
  summaries : Option (List String) := none
deriving DecidableEq, Repr

/-- metadata.get("knowledge_id", "unknown") as used for grouping. -/
def Doc.kid (d : Doc) : String := d.knowledgeId.getD "unknown"

/-- filter_condition: a knowledge-id $in filter when the id list is truthy
(non-empty), otherwise None — an empty list yields NO filter. -/
def filterCondition (ids : List String) : Option (List String) :=
  if ids = [] then none else some ids

/-- External similarity_search_with_score(query, k, filter): up to k
entries of the store; a knowledge-id filter keeps only documents whose
knowledge_id metadata is listed; filter None searches the whole store. -/
def chromaSearch (store : List (Doc × ℚ)) (k : Nat) (filt : Option (List String)) :
    List (Doc × ℚ) :=
  (match filt with
   | none => store
   | some ids =>
     store.filter (fun e =>
       match e.1.knowledgeId with
       | some kid => decide (kid ∈ ids)
       | none => false)).take k

/-- Distance-to-similarity normalization times the configured weight. -/
def normScore (vw : ℚ) (dist : ℚ) : ℚ := (1 / (1 + dist)) * vw

/-- One member block collected into a document group on the summary path. -/
structure GChunk where
  index : Nat
  content : String
  summary : String
  score : ℚ
deriving DecidableEq, Repr

/-- One doc_groups value: collected blocks, running best score, the
metadata of the first hit, and the collected summary texts. -/
structure Group where
  chunks : List GChunk
  maxScore : ℚ
  metadata : Doc
  summaries : List String
deriving DecidableEq, Repr

/-- The block record appended for a hit. -/
def gchunkOf (vw : ℚ) (hit : Doc × ℚ) : GChunk :=
  { index := hit.1.chunkIndex.getD 0
    content := hit.1.originalChunk.getD hit.1.pageContent
    summary := hit.1.pageContent
    score := normScore vw hit.2 }

/-- The fresh group created at a hit whose knowledge id is new. -/
def newGroup (vw : ℚ) (hit : Doc × ℚ) : Group :=
  { chunks := [gchunkOf vw hit]
    maxScore := normScore vw hit.2
    metadata := hit.1
    summaries := [hit.1.pageContent] }

/-- The in-place update of an existing group at a further hit: raise the
best score if beaten, and append the block unless its chunk index was
already collected. -/
def stepGroup (vw : ℚ) (hit : Doc × ℚ) (g : Group) : Group :=
  let ns := normScore vw hit.2
  let ci := hit.1.chunkIndex.getD 0
  let g1 := { g with maxScore := if ns > g.maxScore then ns else g.maxScore }
  if ci ∈ g1.chunks.map (fun c => c.index) then g1
  else { g1 with chunks := g1.chunks ++ [gchunkOf vw hit],
                 summaries := g1.summaries ++ [hit.1.pageContent] }

/-- Python dict update doc_groups[kid] over the association list: assign in
place when the key exists, append the fresh group otherwise. -/
def updateGroups (vw : ℚ) (hit : Doc × ℚ) : List (String × Group) → List (String × Group)
  | [] => [(hit.1.kid, newGroup vw hit)]
  | (k, g) :: rest =>
    if k = hit.1.kid then (k, stepGroup vw hit g) :: rest
    else (k, g) :: updateGroups vw hit rest

/-- The grouping loop of _retrieve_from_summary over the raw results. -/
def buildGroups (vw : ℚ) (results : List (Doc × ℚ)) : List (String × Group) :=
  results.foldl (fun gs h => updateGroups vw h gs) []

/-- Python double-newline join. -/
def pyJoinDoubleNL (ls : List String) : String :=
  ⟨List.intercalate ['\n', '\n'] (ls.map String.data)⟩

/-- The aggregated result document emitted for a kept group: the group's
metadata spread together with the aggregation keys, the page content being
the double-newline join of the member blocks in the given order. -/
def aggDoc (g : Group) (sortedChunks : List GChunk) : Doc :=
  { g.metadata with
    pageContent := pyJoinDoubleNL (sortedChunks.map (fun c => c.content))
    aggregatedChunks := some sortedChunks.length
    chunkIndices := some (sortedChunks.map (fun c => c.index))
    summaries := some g.summaries }

/-- Core of _retrieve_from_summary on the raw search results: group by
knowledge id, rank groups by best score (Python stable descending sort),
keep top_k groups, and emit one aggregated candidate per group with the
blocks ordered by ascending chunk index. -/
def retrieveFromSummaryCore (results : List (Doc × ℚ)) (topK : Nat) (vw : ℚ) :
    List (Doc × ℚ) :=
  let groups := buildGroups vw results
  let sorted := (List.insertionSort
    (fun a b : String × Group => b.2.maxScore ≤ a.2.maxScore) groups).take topK
  sorted.map fun kg =>
    let sc := List.insertionSort (fun a b : GChunk => a.index ≤ b.index) kg.2.chunks
    (aggDoc kg.2 sc, kg.2.maxScore)

/-- HybridRetriever._retrieve_from_summary: search the summary store for
top_k * 3 candidates under the optional scope filter, then aggregate. -/
def retrieveFromSummary (summaryStore : List (Doc × ℚ)) (ids : List String)
    (topK : Nat) (vw : ℚ) : List (Doc × ℚ) :=
  retrieveFromSummaryCore (chromaSearch summaryStore (topK * 3) (filterCondition ids)) topK vw

/-- Merged per-chunk entry of the detail path's results dict. -/
structure REntry where
  doc : Doc
  vectorScore : ℚ
  bm25Score : ℚ
deriving DecidableEq, Repr

/-- doc_id: the chunk_id metadata when truthy, else the f-string fallback
(a missing knowledge_id prints as None in Python's f-string). -/
def docIdOf (d : Doc) : String :=
  let fallback := (d.knowledgeId.getD "None") ++ "_" ++
    toString (d.largeChunkIndex.getD 0) ++ "_" ++ toString (d.smallChunkIndex.getD 0)
  match d.chunkId with
  | some cid => if cid = "" then fallback else cid
  | none => fallback

/-- Dict assignment results[doc_id] = entry (overwrite in place or append). -/
def setEntry (docId : String) (e : REntry) : List (String × REntry) → List (String × REntry)
  | [] => [(docId, e)]
  | (k, v) :: rest =>
    if k = docId then (k, e) :: rest else (k, v) :: setEntry docId e rest

/-- HybridRetriever._vector_search: search the detail store for top_k * 2
candidates under the optional scope filter and record each as a vector-only
entry (overwriting any previous entry for the same doc_id). -/
def vectorSearch (detailStore : List (Doc × ℚ)) (ids : List String) (topK : Nat)
    (weight : ℚ) (rs : List (String × REntry)) : List (String × REntry) :=
  (chromaSearch detailStore (topK * 2) (filterCondition ids)).foldl
    (fun rs h => setEntry (docIdOf h.1) ⟨h.1, normScore weight h.2, 0⟩ rs) rs

/-- Dict update for a BM25 hit: set the bm25 component of an existing
entry, or add a keyword-only entry. -/
def setBm25 (docId : String) (d : Doc) (ns : ℚ) : List (String × REntry) → List (String × REntry)
  | [] => [(docId, ⟨d, 0, ns⟩)]
  | (k, v) :: rest =>
    if k = docId then (k, { v with bm25Score := ns }) :: rest
    else (k, v) :: setBm25 docId d ns rest

/-- Python max over a score list (0 for the empty list, unreachable when
the index was built). -/
def pyMaxQ (l : List ℚ) : ℚ :=
  match l with
  | [] => 0
  | a :: t => t.foldl max a

/-- The BM25 scope check: with a non-empty id list, skip documents whose
knowledge_id metadata is missing or not listed. -/
def bm25Skip (ids : List String) (d : Doc) : Bool :=
  decide (ids ≠ []) && !(match d.knowledgeId with
    | some kid => decide (kid ∈ ids)
    | none => false)

/-- HybridRetriever._bm25_search: none models an unbuilt index (or a
missing rank_bm25); raw scores are normalized by the maximum positive raw
score over the whole corpus before the scope filter is applied. -/
def bm25Search (bm25 : Option (List (Doc × ℚ))) (ids : List String) (weight : ℚ)
    (rs : List (String × REntry)) : List (String × REntry) :=
  match bm25 with
  | none => rs
  | some data =>
    if weight ≤ 0 then rs
    else
      let m := pyMaxQ (data.map (fun e => e.2))
      let maxScore := if m > 0 then m else 1
      data.foldl (fun rs e =>
        if e.2 > 0 then
          if bm25Skip ids e.1 then rs
          else setBm25 (docIdOf e.1) e.1 ((e.2 / maxScore) * weight) rs
        else rs) rs

/-- The fused candidates: each merged entry with its combined score. -/
def fusedOf (rs : List (String × REntry)) : List (Doc × ℚ) :=
  rs.map fun kv => (kv.2.doc, kv.2.vectorScore + kv.2.bm25Score)

/-- The detail-path deduplication key: document name (default empty) and
the first 100 characters of the large chunk (page content when the
large_chunk metadata is absent). -/
def dedupKey (d : Doc) : String × String :=
  (d.name.getD "", pyTake 100 (d.largeChunk.getD d.pageContent))

/-- The dedup-and-truncate loop: walk the ranked candidates, skip a
candidate whose key was already kept, and stop right after the kept list
reaches top_k. -/
def dedupGo (topK : Nat) : List (Doc × ℚ) → List (String × String) → List (Doc × ℚ) →
    List (Doc × ℚ)
  | [], _, acc => acc.reverse
  | c :: rest, seen, acc =>
    if dedupKey c.1 ∈ seen then dedupGo topK rest seen acc
    else if topK ≤ acc.length + 1 then (c :: acc).reverse
    else dedupGo topK rest (dedupKey c.1 :: seen) (c :: acc)

/-- Steps 3 and 4 of _retrieve_from_detail on the merged results dict:
combine the two score components, Python stable descending sort, dedup, and
truncate to top_k. -/
def retrieveFromDetailCore (rs : List (String × REntry)) (topK : Nat) : List (Doc × ℚ) :=
  dedupGo topK
    (List.insertionSort (fun a b : Doc × ℚ => b.2 ≤ a.2) (fusedOf rs)) [] []

/-- Steps 1 and 2 of _retrieve_from_detail: the results dict after the
vector pass then the BM25 pass. -/
def mergedResults (detailStore : List (Doc × ℚ)) (bm25 : Option (List (Doc × ℚ)))
    (ids : List String) (topK : Nat) (vw bw : ℚ) : List (String × REntry) :=
  bm25Search bm25 ids bw (vectorSearch detailStore ids topK vw [])

/-- HybridRetriever._retrieve_from_detail. -/
def retrieveFromDetail (detailStore : List (Doc × ℚ)) (bm25 : Option (List (Doc × ℚ)))
    (ids : List String) (topK : Nat) (vw bw : ℚ) : List (Doc × ℚ) :=
  retrieveFromDetailCore (mergedResults detailStore bm25 ids topK vw bw) topK

/-- Index routing of HybridRetriever.retrieve. -/
inductive IndexType where
  | detail
  | summary
deriving DecidableEq, Repr

/-- HybridRetriever.retrieve. -/
def retrieve (detailStore summaryStore : List (Doc × ℚ)) (bm25 : Option (List (Doc × ℚ)))
    (ids : List String) (indexType : IndexType) (topK : Nat) (vw bw : ℚ) :
    List (Doc × ℚ) :=
  match indexType with
  | .summary => retrieveFromSummary summaryStore ids topK vw
  | .detail => retrieveFromDetail detailStore bm25 ids topK vw bw

end Retriever

/-! ## Lemmas about the detail-path dedup loop (for C5) -/

namespace Retriever

theorem dedupGo_length (topK : Nat) :
    ∀ (l : List (Doc × ℚ)) (seen : List (String × String)) (acc : List (Doc × ℚ)),
    acc.length < topK → (dedupGo topK l seen acc).length ≤ topK := by
  intro l
  induction l with
  | nil =>
    intro seen acc hacc
    simpa [dedupGo] using Nat.le_of_lt hacc
  | cons c rest ih =>
    intro seen acc hacc
    unfold dedupGo
    split
    · exact ih seen acc hacc
    · split
      · simp only [List.length_reverse, List.length_cons]
        omega
      · refine ih _ _ ?_
        simp only [List.length_cons]
        omega

theorem dedupGo_nodup_keys (topK : Nat) :
    ∀ (l : List (Doc × ℚ)) (seen : List (String × String)) (acc : List (Doc × ℚ)),
    (∀ a ∈ acc, dedupKey a.1 ∈ seen) →
    (acc.map (fun a => dedupKey a.1)).Nodup →
    ((dedupGo topK l seen acc).map (fun a => dedupKey a.1)).Nodup := by
  intro l
  induction l with
  | nil =>
    intro seen acc _ hnd
    simpa [dedupGo, List.map_reverse] using hnd
  | cons c rest ih =>
    intro seen acc hcov hnd
    unfold dedupGo
    split
    · exact ih seen acc hcov hnd
    · rename_i hkey
      have hnot : dedupKey c.1 ∉ acc.map (fun a => dedupKey a.1) := by
        intro hmem
        rcases List.mem_map.mp hmem with ⟨a, ha, heq⟩
        exact hkey (heq ▸ hcov a ha)
      split
      · rw [List.map_reverse]
        rw [List.nodup_reverse]
        exact List.nodup_cons.mpr ⟨hnot, hnd⟩
      · refine ih _ _ ?_ ?_
        · intro a ha
          rcases List.mem_cons.mp ha with rfl | ha'
          · exact List.mem_cons_self _ _
          · exact List.mem_cons_of_mem _ (hcov a ha')
        · exact List.nodup_cons.mpr ⟨hnot, hnd⟩

theorem dedupGo_dominant (topK : Nat) :
    ∀ (l : List (Doc × ℚ)) (seen : List (String × String)) (acc : List (Doc × ℚ)),
    l.Sorted (fun a b : Doc × ℚ => b.2 ≤ a.2) →
    ∀ x ∈ dedupGo topK l seen acc, x ∈ acc ∨
      (x ∈ l ∧ dedupKey x.1 ∉ seen ∧ ∀ y ∈ l, dedupKey y.1 = dedupKey x.1 → y.2 ≤ x.2) := by
  intro l
  induction l with
  | nil =>
    intro seen acc _ x hx
    exact Or.inl (by simpa [dedupGo] using hx)
  | cons c rest ih =>
    intro seen acc hsort x hx
    have hhead := List.rel_of_sorted_cons hsort
    have htail := List.sorted_cons.mp hsort |>.2
    unfold dedupGo at hx
    split at hx
    · rename_i hkey
      rcases ih seen acc htail x hx with hacc | ⟨hxl, hxs, hdom⟩
      · exact Or.inl hacc
      · refine Or.inr ⟨List.mem_cons_of_mem _ hxl, hxs, ?_⟩
        intro y hy heq
        rcases List.mem_cons.mp hy with rfl | hy'
        · exact absurd (heq ▸ hkey) hxs
        · exact hdom y hy' heq
    · rename_i hkey
      split at hx
      · rw [List.mem_reverse] at hx
        rcases List.mem_cons.mp hx with rfl | hacc
        · refine Or.inr ⟨List.mem_cons_self _ _, hkey, ?_⟩
          intro y hy heq
          rcases List.mem_cons.mp hy with rfl | hy'
          · exact le_refl _
          · exact hhead y hy'
        · exact Or.inl hacc
      · rcases ih _ _ htail x hx with hacc | ⟨hxl, hxs, hdom⟩
        · rcases List.mem_cons.mp hacc with rfl | hacc'
          · refine Or.inr ⟨List.mem_cons_self _ _, hkey, ?_⟩
            intro y hy heq
            rcases List.mem_cons.mp hy with rfl | hy'
            · exact le_refl _
            · exact hhead y hy'
          · exact Or.inl hacc'
        · have hxs' : dedupKey x.1 ∉ seen := fun hc => hxs (List.mem_cons_of_mem _ hc)
          refine Or.inr ⟨List.mem_cons_of_mem _ hxl, hxs', ?_⟩
          intro y hy heq
          rcases List.mem_cons.mp hy with rfl | hy'
          · exact absurd (heq ▸ List.mem_cons_self (dedupKey y.1) seen) (heq ▸ hxs)
          · exact hdom y hy' heq

end Retriever

/-- C5: On the DETAIL path, after the fused candidates are sorted by
descending combined score, the output is deduplicated by (document name,
first 100 characters of the large-chunk text): the kept candidates have
pairwise distinct keys (so two candidates sharing the key never both
appear), any kept candidate's combined score is greater than or equal to
the score of EVERY fused candidate sharing its key (only the
higher-scored one can appear), and the output holds at most top_k
candidates. -/
theorem c5_detail_dedup_topk
    (detailStore : List (Retriever.Doc × ℚ)) (bm25 : Option (List (Retriever.Doc × ℚ)))
    (ids : List String) (topK : Nat) (vw bw : ℚ) (h : 0 < topK) :
    (Retriever.retrieveFromDetail detailStore bm25 ids topK vw bw).length ≤ topK ∧
    ((Retriever.retrieveFromDetail detailStore bm25 ids topK vw bw).map
      (fun c => Retriever.dedupKey c.1)).Nodup ∧
    ∀ a ∈ Retriever.retrieveFromDetail detailStore bm25 ids topK vw bw,
      ∀ b ∈ Retriever.fusedOf (Retriever.mergedResults detailStore bm25 ids topK vw bw),
        Retriever.dedupKey b.1 = Retriever.dedupKey a.1 → b.2 ≤ a.2 := by
  unfold Retriever.retrieveFromDetail Retriever.retrieveFromDetailCore
  refine ⟨Retriever.dedupGo_length topK _ [] [] (by simpa using h),
    Retriever.dedupGo_nodup_keys topK _ [] [] (by simp) (by simp), ?_⟩
  intro a ha b hb heq
  haveI ht : IsTotal (Retriever.Doc × ℚ) (fun a b => b.2 ≤ a.2) :=
    ⟨fun a b => le_total b.2 a.2⟩
  haveI htr : IsTrans (Retriever.Doc × ℚ) (fun a b => b.2 ≤ a.2) :=
    ⟨fun _ _ _ h1 h2 => le_trans h2 h1⟩
  have hsort : (List.insertionSort (fun a b : Retriever.Doc × ℚ => b.2 ≤ a.2)
      (Retriever.fusedOf (Retriever.mergedResults detailStore bm25 ids topK vw bw))).Sorted
      (fun a b => b.2 ≤ a.2) :=
    List.sorted_insertionSort _ _
  rcases Retriever.dedupGo_dominant topK _ [] [] hsort a ha with h0 | ⟨-, -, hdom⟩
  · simp at h0
  · exact hdom b ((List.mem_insertionSort _).mpr hb) heq

/-- Witness for C5 at a concrete input. -/
theorem c5_detail_dedup_topk_witness :
    0 < 1 ∧
    ((Retriever.retrieveFromDetail [] none [] 1 0 0).length ≤ 1 ∧
    ((Retriever.retrieveFromDetail [] none [] 1 0 0).map
      (fun c => Retriever.dedupKey c.1)).Nodup ∧
    ∀ a ∈ Retriever.retrieveFromDetail [] none [] 1 0 0,
      ∀ b ∈ Retriever.fusedOf (Retriever.mergedResults [] none [] 1 0 0),
        Retriever.dedupKey b.1 = Retriever.dedupKey a.1 → b.2 ≤ a.2) :=
  ⟨by decide, c5_detail_dedup_topk [] none [] 1 0 0 (by decide)⟩

/-- A one-document store for concrete evaluations. -/
def sampleDoc : Retriever.Doc :=
  { pageContent := "content x", name := some "doc.md", knowledgeId := some "k1" }

/-- C2 counterexample: retrieve called with an empty knowledge_ids list
does NOT return an empty result: the truthiness test in filter_condition
turns an empty list into filter None, so both the detail vector search and
the summary search run unscoped over the whole store, and results come
back for a non-empty store on either index path. -/
theorem c2_empty_scope_returns_results :
    Retriever.retrieve [(sampleDoc, 1)] [(sampleDoc, 1)] none []
      Retriever.IndexType.detail 5 1 0 ≠ [] ∧
    Retriever.retrieve [(sampleDoc, 1)] [(sampleDoc, 1)] none []
      Retriever.IndexType.summary 3 1 0 ≠ [] := by
  refine ⟨by decide, by decide⟩

/-! ## Reranker (backend/airag/reranker.py, DashScopeReranker)

The DashScope rerank HTTP call is an oracle: none models a non-200
response, a raised exception or a timeout; some items models the parsed
output.results list as (index, relevance_score) pairs.  A missing API key
is the hasKey flag. -/

namespace Reranker

/-- RerankResult dataclass. -/
structure RerankResult where
  document : Retriever.Doc
  originalScore : ℚ
  rerankScore : ℚ
  isRelevant : Bool
deriving DecidableEq, Repr

/-- Module-level default threshold RERANK_THRESHOLD of reranker.py. -/
def RERANK_THRESHOLD : ℚ := 3 / 10

/-- DashScopeReranker._fallback_results (also the missing-API-key branch):
every input document is returned, the original fused score standing in as
the rerank score; is_relevant is computed but nothing is excluded. -/
def fallbackResults (threshold : ℚ) (documents : List (Retriever.Doc × ℚ)) :
    List RerankResult :=
  documents.map fun ds => ⟨ds.1, ds.2, ds.2, decide (threshold ≤ ds.2)⟩

/-- The parse loop over the API response items: look up each returned
index in the submitted list (out-of-range indices are dropped) and attach
the relevance score, marking relevance by the inclusive threshold test. -/
def parsedResults (threshold : ℚ) (documents : List (Retriever.Doc × ℚ))
    (items : List (Nat × ℚ)) : List RerankResult :=
  items.filterMap fun iv =>
    match documents.get? iv.1 with
    | some ds => some ⟨ds.1, ds.2, iv.2, decide (threshold ≤ iv.2)⟩
    | none => none

/-- DashScopeReranker.rerank: empty input short-circuits; without an API
key or on a failed call the fallback list is returned unfiltered; on a
successful call the parsed results are sorted by descending rerank score
(Python stable sort) and only the relevant ones kept, truncated to top_k
when a truthy top_k was given. -/
def rerank (hasKey : Bool) (apiResp : Option (List (Nat × ℚ))) (threshold : ℚ)
    (documents : List (Retriever.Doc × ℚ)) (topK : Option Nat) : List RerankResult :=
  if documents = [] then []
  else if ¬ hasKey then fallbackResults threshold documents
  else
    match apiResp with
    | none => fallbackResults threshold documents
    | some items =>
      let results := List.insertionSort
        (fun a b : RerankResult => b.rerankScore ≤ a.rerankScore)
        (parsedResults threshold documents items)
      let relevant := results.filter (fun r => r.isRelevant)
      match topK with
      | some k => if k ≠ 0 ∧ k < relevant.length then relevant.take k else relevant
      | none => relevant

theorem parsedResults_isRelevant (threshold : ℚ) (documents : List (Retriever.Doc × ℚ))
    (items : List (Nat × ℚ)) :
    ∀ r ∈ parsedResults threshold documents items,
      r.isRelevant = decide (threshold ≤ r.rerankScore) := by
  intro r hr
  rcases List.mem_filterMap.mp hr with ⟨iv, -, hiv⟩
  rcases hds : documents.get? iv.1 with - | ds
  · rw [hds] at hiv
    exact absurd hiv (by simp)
  · rw [hds] at hiv
    simp only [Option.some.injEq] at hiv
    subst hiv
    rfl

/-- Documents in any rerank output come from the submitted list, with the
submitted fused score as original_score (used by the chat pipeline
theorems). -/
theorem rerank_document_mem (hasKey : Bool) (apiResp : Option (List (Nat × ℚ)))
    (threshold : ℚ) (documents : List (Retriever.Doc × ℚ)) (topK : Option Nat) :
    ∀ r ∈ rerank hasKey apiResp threshold documents topK,
      (r.document, r.originalScore) ∈ documents := by
  intro r hr
  unfold rerank at hr
  split at hr
  · exact absurd hr (by simp)
  · have hfall : ∀ th, r ∈ fallbackResults th documents →
        (r.document, r.originalScore) ∈ documents := by
      intro th hmem
      rcases List.mem_map.mp hmem with ⟨ds, hds, rfl⟩
      exact hds
    split at hr
    · exact hfall threshold hr
    · split at hr
      · exact hfall threshold hr
      · rename_i items
        have hparsed : ∀ s ∈ parsedResults threshold documents items,
            (s.document, s.originalScore) ∈ documents := by
          intro s hs
          rcases List.mem_filterMap.mp hs with ⟨iv, -, hiv⟩
          rcases hds : documents.get? iv.1 with - | ds
          · rw [hds] at hiv
            exact absurd hiv (by simp)
          · rw [hds] at hiv
            simp only [Option.some.injEq] at hiv
            subst hiv
            exact List.get?_mem hds
        dsimp only at hr
        split at hr
        · split at hr
          · have := List.mem_of_mem_take hr
            have h2 := List.mem_filter.mp this
            exact hparsed r ((List.mem_insertionSort _).mp h2.1)
          · have h2 := List.mem_filter.mp hr
            exact hparsed r ((List.mem_insertionSort _).mp h2.1)
        · have h2 := List.mem_filter.mp hr
          exact hparsed r ((List.mem_insertionSort _).mp h2.1)

end Reranker

/-- C6 counterexample: on the fallback path (here: the API call failed, so
rerank returns _fallback_results) a candidate whose rerank score is
strictly below the configured threshold is NOT excluded: with threshold 1,
the single candidate scored 0 is returned (flagged not relevant but still
present), refuting that rerank always excludes strictly-below-threshold
candidates. -/
theorem c6_fallback_not_filtered :
    Reranker.rerank true none 1 [(sampleDoc, 0)] none =
      [⟨sampleDoc, 0, 0, false⟩] ∧
    (0 : ℚ) < 1 := by
  refine ⟨by decide, by decide⟩

/-- C6 amended: on a successful rerank API call (and no top_k truncation,
which is how the chat endpoint calls it), the output consists of exactly
the parsed candidates whose rerank score is at least the threshold — the
boundary is inclusive, a candidate scored exactly at the threshold is
retained, one strictly below is excluded; but when the API key is missing
or the call fails, the fallback returns every submitted candidate with the
original fused score as rerank score, excluding nothing (is_relevant only
marks the sub-threshold ones). -/
theorem c6_threshold_inclusive_amended (threshold : ℚ)
    (documents : List (Retriever.Doc × ℚ)) :
    (∀ items : List (Nat × ℚ), ∀ r,
      r ∈ Reranker.rerank true (some items) threshold documents none ↔
        r ∈ Reranker.parsedResults threshold documents items ∧ threshold ≤ r.rerankScore) ∧
    (∀ apiResp topK, Reranker.rerank false apiResp threshold documents topK =
      if documents = [] then [] else Reranker.fallbackResults threshold documents) ∧
    (∀ topK, Reranker.rerank true none threshold documents topK =
      if documents = [] then [] else Reranker.fallbackResults threshold documents) ∧
    (Reranker.fallbackResults threshold documents =
      documents.map fun ds => ⟨ds.1, ds.2, ds.2, decide (threshold ≤ ds.2)⟩) := by
  refine ⟨?_, ?_, ?_, rfl⟩
  · intro items r
    constructor
    · intro hr
      unfold Reranker.rerank at hr
      split at hr
      · rename_i hnil
        subst hnil
        exact absurd hr (by simp)
      · rw [if_neg (by simp)] at hr
        have h2 := List.mem_filter.mp hr
        have h3 := (List.mem_insertionSort _).mp h2.1
        refine ⟨h3, ?_⟩
        have h4 := Reranker.parsedResults_isRelevant threshold documents items r h3
        rw [h4] at h2
        exact of_decide_eq_true h2.2
    · rintro ⟨hmem, hle⟩
      unfold Reranker.rerank
      split
      · rename_i hnil
        subst hnil
        simp [Reranker.parsedResults] at hmem
      · rw [if_neg (by simp)]
        refine List.mem_filter.mpr ⟨(List.mem_insertionSort _).mpr hmem, ?_⟩
        rw [Reranker.parsedResults_isRelevant threshold documents items r hmem]
        exact decide_eq_true hle
  · intro apiResp topK
    unfold Reranker.rerank
    by_cases hnil : documents = [] <;> simp [hnil]
  · intro topK
    unfold Reranker.rerank
    by_cases hnil : documents = [] <;> simp [hnil]

/-! ## Chat endpoint (backend/airag/api/chat.py)

The LLM call and Python's float round(x, 4) are abstracted: round4 is an
arbitrary function (every theorem below holds for every rounding), and the
retriever output is the results parameter. -/

namespace Chat

/-- Module constant RELEVANCE_THRESHOLD of chat.py. -/
def RELEVANCE_THRESHOLD : ℚ := 35 / 100

/-- SourceItem of models.py as populated by chat.py (score is always set
on these paths). -/
structure SourceItem where
  name : String
  content : String
  courseName : Option String
  score : ℚ
deriving DecidableEq, Repr

/-- Content selection of _retrieve_sources: the summary index returns the
aggregated page content; the detail index returns the large chunk (when
use_large_chunk and present) else the page content. -/
def contentOf (indexType : Retriever.IndexType) (useLargeChunk : Bool)
    (d : Retriever.Doc) : String :=
  match indexType with
  | .summary => d.pageContent
  | .detail => if useLargeChunk then d.largeChunk.getD d.pageContent else d.pageContent

/-- The seen_contents dedup key of _retrieve_sources (name default 未知). -/
def sourceKey (indexType : Retriever.IndexType) (useLargeChunk : Bool)
    (d : Retriever.Doc) : String × String :=
  (d.name.getD "未知", pyTake 100 (contentOf indexType useLargeChunk d))

/-- One SourceItem built from a retrieval result in _retrieve_sources. -/
def mkSource (round4 : ℚ → ℚ) (indexType : Retriever.IndexType) (useLargeChunk : Bool)
    (p : Retriever.Doc × ℚ) : SourceItem :=
  { name := p.1.name.getD "未知来源"
    content := contentOf indexType useLargeChunk p.1
    courseName := p.1.courseName
    score := round4 p.2 }

/-- The source-building loop of _retrieve_sources: first occurrence of
each content key wins. -/
def buildSources (round4 : ℚ → ℚ) (indexType : Retriever.IndexType) (useLargeChunk : Bool) :
    List (Retriever.Doc × ℚ) → List (String × String) → List SourceItem
  | [], _ => []
  | p :: rest, seen =>
    if sourceKey indexType useLargeChunk p.1 ∈ seen then
      buildSources round4 indexType useLargeChunk rest seen
    else
      mkSource round4 indexType useLargeChunk p ::
        buildSources round4 indexType useLargeChunk rest
          (sourceKey indexType useLargeChunk p.1 :: seen)

/-- One SourceItem rebuilt from a rerank result in the chat endpoint. -/
def mkRerankedSource (round4 : ℚ → ℚ) (r : Reranker.RerankResult) : SourceItem :=
  { name := r.document.name.getD "未知来源"
    content := r.document.largeChunk.getD r.document.pageContent
    courseName := r.document.courseName
    score := round4 r.rerankScore }

/-- The retrieval stage of the chat endpoint: skip retrieval entirely when
no knowledge ids were given; otherwise build sources from the retrieval
results, filter the sources by the relevance threshold on the rounded
score, and when any survived (and raw results exist) rerank the raw
results filtered by the same threshold on the raw score, replacing the
source list by the rerank output.  Returns the final source list (used for
prompt assembly and returned to the user) together with the list of
documents submitted to the reranker. -/
def chatStage (round4 : ℚ → ℚ) (knowledgeIds : List String)
    (indexType : Retriever.IndexType) (useLargeChunk : Bool)
    (results : List (Retriever.Doc × ℚ)) (hasKey : Bool)
    (apiResp : Option (List (Nat × ℚ))) (rerankThreshold : ℚ) :
    List SourceItem × List (Retriever.Doc × ℚ) :=
  if knowledgeIds = [] then ([], [])
  else
    let sources0 := buildSources round4 indexType useLargeChunk results []
    let sources := sources0.filter (fun s => RELEVANCE_THRESHOLD ≤ s.score)
    if sources ≠ [] ∧ results ≠ [] then
      let filteredRaw := results.filter (fun p => RELEVANCE_THRESHOLD ≤ p.2)
      let rr := Reranker.rerank hasKey apiResp rerankThreshold filteredRaw none
      (rr.map (mkRerankedSource round4), filteredRaw)
    else (sources, [])

end Chat

/-- C10: in the chat endpoint, for every rounding function, scope, index
type, retrieval result list, and reranker behavior (key present or not,
call successful or failed), every source in the final list fed to prompt
assembly and returned to the caller traces back to a retrieval result
whose raw fused score is at least RELEVANCE_THRESHOLD = 0.35 (its name,
passage content and course are built from that document), and every
document submitted to the reranker has raw fused score at least the
threshold; hence a passage whose fused score is strictly below 0.35 is
never submitted to the reranker and never appears among the sources. -/
theorem c10_relevance_threshold_filter (round4 : ℚ → ℚ) (knowledgeIds : List String)
    (indexType : Retriever.IndexType) (useLargeChunk : Bool)
    (results : List (Retriever.Doc × ℚ)) (hasKey : Bool)
    (apiResp : Option (List (Nat × ℚ))) (rerankThreshold : ℚ) :
    (∀ s ∈ (Chat.chatStage round4 knowledgeIds indexType useLargeChunk results hasKey
        apiResp rerankThreshold).1,
      ∃ p ∈ results, Chat.RELEVANCE_THRESHOLD ≤ p.2 ∧
        s.name = p.1.name.getD "未知来源" ∧
        s.content = p.1.largeChunk.getD p.1.pageContent ∧
        s.courseName = p.1.courseName) ∧
    (∀ p ∈ (Chat.chatStage round4 knowledgeIds indexType useLargeChunk results hasKey
        apiResp rerankThreshold).2,
      Chat.RELEVANCE_THRESHOLD ≤ p.2) := by
  unfold Chat.chatStage
  split
  · exact ⟨fun s hs => absurd hs (by simp), fun p hp => absurd hp (by simp)⟩
  · dsimp only
    split
    · rename_i hcond
      constructor
      · intro s hs
        simp only [List.mem_map] at hs
        rcases hs with ⟨r, hr, rfl⟩
        have hmem := Reranker.rerank_document_mem hasKey apiResp rerankThreshold _ none r hr
        have h2 := List.mem_filter.mp hmem
        refine ⟨(r.document, r.originalScore), h2.1, of_decide_eq_true h2.2, rfl, rfl, rfl⟩
      · intro p hp
        exact of_decide_eq_true (List.mem_filter.mp hp).2
    · rename_i hcond
      constructor
      · intro s hs
        rw [not_and_or] at hcond
        rcases hcond with hsrc | hraw
        · rw [not_not] at hsrc
          rw [hsrc] at hs
          exact absurd hs (by simp)
        · rw [not_not] at hraw
          subst hraw
          simp only [Chat.buildSources] at hs
          exact absurd hs (by simp [List.filter])
      · intro p hp
        exact absurd hp (by simp)

/-- C2 amended: retrieve with an empty knowledge_ids list does not
short-circuit — it falls back to an unscoped search: filter_condition maps
an empty list to None, so the detail and summary vector searches run over
the whole store (the first k of all documents, none excluded by scope),
and the BM25 pass applies no scope filtering at all (its skip test is
vacuous for an empty list); the empty-scope guard lives only in the chat
endpoint, which skips retrieval entirely (no sources, nothing reranked)
when knowledge_ids is empty. -/
theorem c2_empty_scope_amended :
    (∀ (store : List (Retriever.Doc × ℚ)) (k : Nat),
      Retriever.chromaSearch store k (Retriever.filterCondition []) = store.take k) ∧
    (∀ d : Retriever.Doc, Retriever.bm25Skip [] d = false) ∧
    (∀ (data : List (Retriever.Doc × ℚ)) (weight : ℚ) (rs : List (String × Retriever.REntry)),
      Retriever.bm25Search (some data) [] weight rs =
        if weight ≤ 0 then rs
        else
          data.foldl (fun rs e =>
            if e.2 > 0 then
              Retriever.setBm25 (Retriever.docIdOf e.1) e.1
                ((e.2 / (if Retriever.pyMaxQ (data.map (fun e => e.2)) > 0 then
                  Retriever.pyMaxQ (data.map (fun e => e.2)) else 1)) * weight) rs
            else rs) rs) ∧
    (∀ (round4 : ℚ → ℚ) (indexType : Retriever.IndexType) (useLargeChunk : Bool)
      (results : List (Retriever.Doc × ℚ)) (hasKey : Bool)
      (apiResp : Option (List (Nat × ℚ))) (rerankThreshold : ℚ),
      Chat.chatStage round4 [] indexType useLargeChunk results hasKey apiResp
        rerankThreshold = ([], [])) := by
  refine ⟨fun store k => rfl, fun d => by simp [Retriever.bm25Skip], ?_, fun _ _ _ _ _ _ _ => rfl⟩
  intro data weight rs
  unfold Retriever.bm25Search
  by_cases hw : weight ≤ 0
  · simp [hw]
  · dsimp only
    rw [if_neg hw, if_neg hw]
    congr 1

/-! ## Citation reconciliation (_filter_used_sources of chat.py)

The bracketed-integer regex is embedded as a one-pass automaton: the
pending state holds the reversed digit run after an opening bracket.
Digits cannot contain an opening bracket, so restarting the regex one
character after a failed match position (Python's scan discipline) finds
nothing before the character that caused the failure, which the automaton
handles directly. -/

namespace Chat

/-- All bracketed integer markers of the text, as values, left to right
(re.findall of the bracketed digit-run pattern followed by int()). -/
def scanAux : List Char → Option (List Char) → List Nat
  | [], _ => []
  | c :: rest, none =>
    if c = '[' then scanAux rest (some []) else scanAux rest none
  | c :: rest, some ds =>
    if c.isDigit then scanAux rest (some (c :: ds))
    else if c = ']' ∧ ds ≠ [] then digitsToNat ds.reverse :: scanAux rest none
    else if c = '[' then scanAux rest (some [])
    else scanAux rest none

/-- Marker values found in the answer. -/
def scanCitations (answer : String) : List Nat := scanAux answer.data none

/-- re.sub over the same pattern: a marker whose value the map covers is
rewritten to the bracketed new number, any other marker (and all other
text) is emitted unchanged. -/
def rewriteAux (m : Nat → Option Nat) : List Char → Option (List Char) → List Char
  | [], none => []
  | [], some ds => '[' :: ds.reverse
  | c :: rest, none =>
    if c = '[' then rewriteAux m rest (some [])
    else c :: rewriteAux m rest none
  | c :: rest, some ds =>
    if c.isDigit then rewriteAux m rest (some (c :: ds))
    else if c = ']' ∧ ds ≠ [] then
      (match m (digitsToNat ds.reverse) with
       | some k => '[' :: (toString k).data ++ [']']
       | none => '[' :: ds.reverse ++ [']']) ++ rewriteAux m rest none
    else if c = '[' then ('[' :: ds.reverse) ++ rewriteAux m rest (some [])
    else ('[' :: ds.reverse) ++ c :: rewriteAux m rest none

/-- First-occurrence deduplication (the seen set of the collection loop). -/
def dedupFirst : List Nat → List Nat → List Nat
  | [], _ => []
  | x :: rest, seen =>
    if x ∈ seen then dedupFirst rest seen
    else x :: dedupFirst rest (x :: seen)

/-- The in-range cited 0-based indices in marker order: value v cites
source v - 1 when 1 ≤ v ≤ n, anything else is discarded. -/
def validCited (answer : String) (n : Nat) : List Nat :=
  (scanCitations answer).filterMap fun v =>
    if 1 ≤ v ∧ v ≤ n then some (v - 1) else none

/-- cited_indices: distinct in-range cited indices in first-appearance
order. -/
def citedIndices (answer : String) (n : Nat) : List Nat :=
  dedupFirst (validCited answer n) []

/-- sorted(cited_indices): ascending original-index order. -/
def sortedCited (answer : String) (n : Nat) : List Nat :=
  List.insertionSort (fun a b => a ≤ b) (citedIndices answer n)

/-- Index of the first occurrence of a value. -/
def firstIdx (x : Nat) : List Nat → Option Nat
  | [] => none
  | y :: rest => if y = x then some 0 else (firstIdx x rest).map (fun i => i + 1)

/-- The old_to_new renumbering dict as a lookup: marker value old maps to
position-plus-one of old - 1 in the ascending cited list (old = 0 is never
a key since cited indices are 0-based). -/
def oldToNew (answer : String) (n : Nat) (old : Nat) : Option Nat :=
  if old = 0 then none
  else (firstIdx (old - 1) (sortedCited answer n)).map (fun i => i + 1)

/-- _filter_used_sources of chat.py. -/
def filterUsedSources {α : Type} (answer : String) (sources : List α) :
    String × List α :=
  if sources.isEmpty then (answer, [])
  else if scanCitations answer = [] then (answer, [])
  else if citedIndices answer sources.length = [] then (answer, [])
  else
    (⟨rewriteAux (oldToNew answer sources.length) answer.data none⟩,
      (sortedCited answer sources.length).filterMap fun i => sources.get? i)

end Chat

namespace Chat

theorem dedupFirst_mem : ∀ (l seen : List Nat) (x : Nat),
    x ∈ dedupFirst l seen ↔ x ∈ l ∧ x ∉ seen := by
  intro l
  induction l with
  | nil => simp [dedupFirst]
  | cons y rest ih =>
    intro seen x
    unfold dedupFirst
    by_cases hy : y ∈ seen
    · rw [if_pos hy, ih]
      constructor
      · rintro ⟨h1, h2⟩
        exact ⟨List.mem_cons_of_mem _ h1, h2⟩
      · rintro ⟨h1, h2⟩
        rcases List.mem_cons.mp h1 with rfl | h1'
        · exact absurd hy h2
        · exact ⟨h1', h2⟩
    · rw [if_neg hy]
      constructor
      · intro hx
        rcases List.mem_cons.mp hx with rfl | hx'
        · exact ⟨List.mem_cons_self _ _, hy⟩
        · have := (ih _ _).mp hx'
          refine ⟨List.mem_cons_of_mem _ this.1, ?_⟩
          intro hc
          exact this.2 (List.mem_cons_of_mem _ hc)
      · rintro ⟨h1, h2⟩
        rcases List.mem_cons.mp h1 with rfl | h1'
        · exact List.mem_cons_self _ _
        · by_cases hxy : x = y
          · subst hxy
            exact List.mem_cons_self _ _
          · refine List.mem_cons_of_mem _ ((ih _ _).mpr ⟨h1', ?_⟩)
            intro hc
            rcases List.mem_cons.mp hc with h | h
            · exact hxy h
            · exact h2 h

theorem dedupFirst_nodup : ∀ (l seen : List Nat), (dedupFirst l seen).Nodup := by
  intro l
  induction l with
  | nil => simp [dedupFirst]
  | cons y rest ih =>
    intro seen
    unfold dedupFirst
    split
    · exact ih seen
    · refine List.nodup_cons.mpr ⟨?_, ih _⟩
      intro hc
      exact ((dedupFirst_mem _ _ _).mp hc).2 (List.mem_cons_self _ _)

theorem citedIndices_nodup (answer : String) (n : Nat) :
    (citedIndices answer n).Nodup :=
  dedupFirst_nodup _ _

theorem citedIndices_lt (answer : String) (n : Nat) :
    ∀ x ∈ citedIndices answer n, x < n := by
  intro x hx
  have h1 := ((dedupFirst_mem _ _ _).mp hx).1
  rcases List.mem_filterMap.mp h1 with ⟨v, -, hv⟩
  by_cases hcond : 1 ≤ v ∧ v ≤ n
  · rw [if_pos hcond] at hv
    simp only [Option.some.injEq] at hv
    omega
  · rw [if_neg hcond] at hv
    exact absurd hv (by simp)

theorem sortedCited_sorted (answer : String) (n : Nat) :
    (sortedCited answer n).Sorted (fun a b => a ≤ b) := by
  haveI : IsTotal Nat (fun a b => a ≤ b) := ⟨le_total⟩
  haveI : IsTrans Nat (fun a b => a ≤ b) := ⟨fun _ _ _ => le_trans⟩
  exact List.sorted_insertionSort _ _

theorem sortedCited_perm (answer : String) (n : Nat) :
    (sortedCited answer n).Perm (citedIndices answer n) :=
  List.perm_insertionSort _ _

/-- The ascending cited list equals the ascending enumeration of the cited
set: sorting the distinct cited indices gives exactly the range filtered
to cited membership. -/
theorem sortedCited_eq_range_filter (answer : String) (n : Nat) :
    sortedCited answer n =
      (List.range n).filter (fun i => decide (i ∈ citedIndices answer n)) := by
  have hnodup := citedIndices_nodup answer n
  have hs1 : (sortedCited answer n).Nodup := (sortedCited_perm answer n).nodup_iff.mpr hnodup
  have hs2 : ((List.range n).filter (fun i => decide (i ∈ citedIndices answer n))).Nodup :=
    (List.nodup_range n).filter _
  refine List.eq_of_perm_of_sorted ?_ (sortedCited_sorted answer n) ?_
  · refine (List.perm_ext_iff_of_nodup hs1 hs2).mpr ?_
    intro a
    rw [List.mem_filter, List.mem_range]
    constructor
    · intro ha
      have h2 := (sortedCited_perm answer n).mem_iff.mp ha
      exact ⟨citedIndices_lt answer n a h2, by simpa using h2⟩
    · rintro ⟨-, h2⟩
      exact (sortedCited_perm answer n).mem_iff.mpr (by simpa using h2)
  · exact ((List.pairwise_lt_range n).filter _).imp le_of_lt

theorem firstIdx_of_nodup : ∀ (l : List Nat), l.Nodup → ∀ (j x : Nat),
    l.get? j = some x → firstIdx x l = some j := by
  intro l
  induction l with
  | nil => intro _ j x h; simp at h
  | cons y rest ih =>
    intro hnd j x hj
    rcases j with - | j
    · simp only [List.get?] at hj
      injection hj with hj
      subst hj
      simp [firstIdx]
    · simp only [List.get?] at hj
      have hx : x ∈ rest := List.get?_mem hj
      have hne : y ≠ x := by
        intro h
        subst h
        exact (List.nodup_cons.mp hnd).1 hx
      unfold firstIdx
      rw [if_neg hne, ih (List.nodup_cons.mp hnd).2 j x hj]
      rfl

/-- Rewriting with a map that covers no marker value is the identity: the
automaton re-emits pending text verbatim on every failure path. -/
theorem rewriteAux_none_map : ∀ l : List Char,
    rewriteAux (fun _ => none) l none = l ∧
    ∀ ds : List Char, rewriteAux (fun _ => none) l (some ds) = '[' :: ds.reverse ++ l := by
  intro l
  induction l with
  | nil => exact ⟨rfl, fun ds => by simp [rewriteAux]⟩
  | cons c rest ih =>
    constructor
    · unfold rewriteAux
      split
      · rename_i hc
        subst hc
        rw [ih.2 []]
        rfl
      · rw [ih.1]
    · intro ds
      unfold rewriteAux
      split
      · rw [ih.2]
        simp
      · split
        · rename_i hcond
          obtain ⟨hc, -⟩ := hcond
          subst hc
          simp [ih.1]
        · split
          · rename_i hc
            subst hc
            simp [ih.2 []]
          · simp [ih.1]

end Chat

/-- C1: citation reconciliation.  First, the concrete contract of the
claim: the answer A[2] and B[2][5] with five sources is rewritten to
A[1] and B[1][2] and the used sources are the second and the fifth.
Second, in general: the returned used_sources list is the sources at the
distinct in-range cited indices enumerated in ascending original-index
order (the ascending sort of the distinct first-appearance cited indices
equals the index range filtered to cited membership), and the renumbering
map sends the marker value of the j-th smallest cited index to j + 1 — a
dense sequence starting at 1 assigned in ascending original-index order.
Third, a marker whose value the renumbering map does not cover is left
untouched: rewriting under the empty map is the identity on any text. -/
theorem c1_citation_reconciliation :
    (Chat.filterUsedSources "A[2] and B[2][5]" [(10 : Nat), 20, 30, 40, 50] =
      ("A[1] and B[1][2]", [20, 50])) ∧
    (∀ (α : Type) (answer : String) (sources : List α),
      (Chat.filterUsedSources answer sources).2 =
        ((List.range sources.length).filter
          (fun i => decide (i ∈ Chat.citedIndices answer sources.length))).filterMap
          (fun i => sources.get? i)) ∧
    (∀ (answer : String) (n : Nat),
      (Chat.sortedCited answer n).enum.all
        (fun p => Chat.oldToNew answer n (p.2 + 1) == some (p.1 + 1)) = true) ∧
    (∀ l : List Char, Chat.rewriteAux (fun _ => none) l none = l) := by
  refine ⟨by decide, ?_, ?_, fun l => (Chat.rewriteAux_none_map l).1⟩
  · intro α answer sources
    unfold Chat.filterUsedSources
    by_cases h1 : sources.isEmpty
    · rw [if_pos h1]
      have : sources = [] := List.isEmpty_iff.mp h1
      subst this
      simp
    · rw [if_neg h1]
      by_cases h2 : Chat.scanCitations answer = []
      · rw [if_pos h2]
        have hv : Chat.citedIndices answer sources.length = [] := by
          unfold Chat.citedIndices Chat.validCited
          rw [h2]
          rfl
        rw [List.filter_eq_nil_iff.mpr (by simp [hv])]
        rfl
      · rw [if_neg h2]
        by_cases h3 : Chat.citedIndices answer sources.length = []
        · rw [if_pos h3]
          rw [List.filter_eq_nil_iff.mpr (by simp [h3])]
          rfl
        · rw [if_neg h3]
          dsimp only
          rw [Chat.sortedCited_eq_range_filter]
  · intro answer n
    rw [List.all_eq_true]
    intro p hp
    have hget : (Chat.sortedCited answer n).get? p.1 = some p.2 := by
      rw [List.get?_eq_getElem?]
      exact List.mem_enum_iff_getElem?.mp hp
    have hnodup : (Chat.sortedCited answer n).Nodup :=
      (Chat.sortedCited_perm answer n).nodup_iff.mpr (Chat.citedIndices_nodup answer n)
    have hfi := Chat.firstIdx_of_nodup _ hnodup p.1 p.2 hget
    unfold Chat.oldToNew
    rw [if_neg (by omega)]
    simp only [Nat.add_sub_cancel, hfi]
    simp

/-! ## Lemmas about the summary-path grouping (for C4) -/

namespace Retriever

/-- The hits of the result list belonging to one knowledge id. -/
def groupHits (results : List (Doc × ℚ)) (kid : String) : List (Doc × ℚ) :=
  results.filter (fun h => decide (h.1.kid = kid))

/-- The blocks collected for a hit sequence: first occurrence of each
chunk index wins, in encounter order. -/
def chunksSpec (vw : ℚ) (hits : List (Doc × ℚ)) : List GChunk :=
  hits.foldl (fun acc h =>
    if (h.1.chunkIndex.getD 0) ∈ acc.map (fun c => c.index) then acc
    else acc ++ [gchunkOf vw h]) []

/-- The best normalized score over a non-empty hit sequence. -/
def maxScoreSpec (vw : ℚ) (hits : List (Doc × ℚ)) : ℚ :=
  match hits with
  | [] => 0
  | h :: t => t.foldl (fun m x => max m (normScore vw x.2)) (normScore vw h.2)

/-- Invariant of the grouping fold after some prefix of the results has
been processed. -/
def groupsInv (vw : ℚ) (processed : List (Doc × ℚ)) (groups : List (String × Group)) : Prop :=
  (groups.map Prod.fst).Nodup ∧
  (∀ kg ∈ groups,
    groupHits processed kg.1 ≠ [] ∧
    kg.2.chunks = chunksSpec vw (groupHits processed kg.1) ∧
    kg.2.maxScore = maxScoreSpec vw (groupHits processed kg.1) ∧
    kg.2.metadata.kid = kg.1) ∧
  (∀ kid, groupHits processed kid ≠ [] → kid ∈ groups.map Prod.fst)

theorem updateGroups_of_not_mem (vw : ℚ) (hit : Doc × ℚ) :
    ∀ groups : List (String × Group), hit.1.kid ∉ groups.map Prod.fst →
    updateGroups vw hit groups = groups ++ [(hit.1.kid, newGroup vw hit)] := by
  intro groups
  induction groups with
  | nil => intro _; rfl
  | cons kg rest ih =>
    intro hmem
    unfold updateGroups
    rw [if_neg]
    · rw [ih (fun hc => hmem (List.mem_cons_of_mem _ hc))]
      rfl
    · intro hc
      exact hmem (by simp [hc])

theorem updateGroups_map_fst (vw : ℚ) (hit : Doc × ℚ) :
    ∀ groups : List (String × Group), hit.1.kid ∈ groups.map Prod.fst →
    (updateGroups vw hit groups).map Prod.fst = groups.map Prod.fst := by
  intro groups
  induction groups with
  | nil => intro h; simp at h
  | cons kg rest ih =>
    intro hmem
    unfold updateGroups
    split
    · simp
    · rename_i hne
      rcases List.mem_map.mp hmem with ⟨kg', hkg', hfst⟩
      rcases List.mem_cons.mp hkg' with rfl | hkg''
      · exact absurd hfst hne
      · simp only [List.map_cons]
        rw [ih (List.mem_map.mpr ⟨kg', hkg'', hfst⟩)]

theorem updateGroups_entries (vw : ℚ) (hit : Doc × ℚ) :
    ∀ groups : List (String × Group), (groups.map Prod.fst).Nodup →
    ∀ kg ∈ updateGroups vw hit groups,
      (kg.1 ≠ hit.1.kid ∧ kg ∈ groups) ∨
      (kg.1 = hit.1.kid ∧
        ((∃ g, (hit.1.kid, g) ∈ groups ∧ kg.2 = stepGroup vw hit g) ∨
          (hit.1.kid ∉ groups.map Prod.fst ∧ kg.2 = newGroup vw hit))) := by
  intro groups
  induction groups with
  | nil =>
    intro _ kg hkg
    simp only [updateGroups, List.mem_singleton] at hkg
    subst hkg
    exact Or.inr ⟨rfl, Or.inr ⟨by simp, rfl⟩⟩
  | cons hd rest ih =>
    intro hnd kg hkg
    have hnd1 : hd.1 ∉ rest.map Prod.fst := (List.nodup_cons.mp (by simpa using hnd)).1
    have hnd2 : (rest.map Prod.fst).Nodup := (List.nodup_cons.mp (by simpa using hnd)).2
    unfold updateGroups at hkg
    split at hkg
    · rename_i heq
      rcases List.mem_cons.mp hkg with rfl | hkg2
      · exact Or.inr ⟨heq, Or.inl ⟨hd.2, by
          rw [← heq]
          exact List.mem_cons_self _ _, rfl⟩⟩
      · by_cases hk : kg.1 = hit.1.kid
        · exfalso
          apply hnd1
          rw [heq, ← hk]
          exact List.mem_map.mpr ⟨kg, hkg2, rfl⟩
        · exact Or.inl ⟨hk, List.mem_cons_of_mem _ hkg2⟩
    · rename_i hne
      rcases List.mem_cons.mp hkg with rfl | hkg2
      · exact Or.inl ⟨hne, List.mem_cons_self _ _⟩
      · rcases ih hnd2 kg hkg2 with ⟨h1, h2⟩ | ⟨h1, h2⟩
        · exact Or.inl ⟨h1, List.mem_cons_of_mem _ h2⟩
        · refine Or.inr ⟨h1, ?_⟩
          rcases h2 with ⟨g, hg, hstep⟩ | ⟨hnm, hnew⟩
          · exact Or.inl ⟨g, List.mem_cons_of_mem _ hg, hstep⟩
          · refine Or.inr ⟨?_, hnew⟩
            intro hc
            rcases (by simpa using hc : hit.1.kid = hd.1 ∨ ∃ x, (hit.1.kid, x) ∈ rest) with
              h | ⟨x, hx⟩
            · exact hne h.symm
            · exact hnm (List.mem_map.mpr ⟨(hit.1.kid, x), hx, rfl⟩)

end Retriever

namespace Retriever

theorem groupHits_append (results : List (Doc × ℚ)) (hit : Doc × ℚ) (kid : String) :
    groupHits (results ++ [hit]) kid =
      groupHits results kid ++ (if hit.1.kid = kid then [hit] else []) := by
  unfold groupHits
  rw [List.filter_append]
  congr 1
  by_cases h : hit.1.kid = kid <;> simp [h]

theorem chunksSpec_append (vw : ℚ) (hits : List (Doc × ℚ)) (hit : Doc × ℚ) :
    chunksSpec vw (hits ++ [hit]) =
      if (hit.1.chunkIndex.getD 0) ∈ (chunksSpec vw hits).map (fun c => c.index) then
        chunksSpec vw hits
      else chunksSpec vw hits ++ [gchunkOf vw hit] := by
  unfold chunksSpec
  rw [List.foldl_append]
  rfl

theorem maxScoreSpec_append (vw : ℚ) (hits : List (Doc × ℚ)) (hit : Doc × ℚ)
    (h : hits ≠ []) :
    maxScoreSpec vw (hits ++ [hit]) = max (maxScoreSpec vw hits) (normScore vw hit.2) := by
  rcases hits with - | ⟨h0, t⟩
  · exact absurd rfl h
  · unfold maxScoreSpec
    rw [List.cons_append]
    dsimp only
    rw [List.foldl_append]
    rfl

theorem ite_gt_eq_max (m ns : ℚ) : (if ns > m then ns else m) = max m ns := by
  by_cases h : ns > m
  · rw [if_pos h, max_eq_right h.le]
  · rw [if_neg h, max_eq_left (le_of_not_lt h)]

theorem stepGroup_spec (vw : ℚ) (hit : Doc × ℚ) (g : Group) (hits : List (Doc × ℚ))
    (hne : hits ≠ [])
    (hch : g.chunks = chunksSpec vw hits)
    (hms : g.maxScore = maxScoreSpec vw hits) :
    (stepGroup vw hit g).chunks = chunksSpec vw (hits ++ [hit]) ∧
    (stepGroup vw hit g).maxScore = maxScoreSpec vw (hits ++ [hit]) ∧
    (stepGroup vw hit g).metadata = g.metadata := by
  unfold stepGroup
  rw [chunksSpec_append, maxScoreSpec_append vw hits hit hne, ← hch, ← hms]
  dsimp only
  split
  · exact ⟨rfl, ite_gt_eq_max _ _, rfl⟩
  · exact ⟨rfl, ite_gt_eq_max _ _, rfl⟩

theorem groupsInv_nil (vw : ℚ) : groupsInv vw [] [] := by
  refine ⟨List.nodup_nil, fun kg hkg => absurd hkg (by simp), fun kid h => absurd rfl h⟩

theorem groupsInv_step (vw : ℚ) (processed : List (Doc × ℚ)) (groups : List (String × Group))
    (hit : Doc × ℚ) (hinv : groupsInv vw processed groups) :
    groupsInv vw (processed ++ [hit]) (updateGroups vw hit groups) := by
  obtain ⟨hnd, hent, hcomp⟩ := hinv
  have hold : ∀ kg : String × Group, kg ∈ groups → kg.1 ≠ hit.1.kid →
      groupHits (processed ++ [hit]) kg.1 ≠ [] ∧
      kg.2.chunks = chunksSpec vw (groupHits (processed ++ [hit]) kg.1) ∧
      kg.2.maxScore = maxScoreSpec vw (groupHits (processed ++ [hit]) kg.1) ∧
      kg.2.metadata.kid = kg.1 := by
    intro kg hkg hne
    obtain ⟨h1, h2, h3, h4⟩ := hent kg hkg
    rw [groupHits_append, if_neg (fun h => hne h.symm), List.append_nil]
    exact ⟨h1, h2, h3, h4⟩
  have hcompstep : ∀ kid : String, groupHits (processed ++ [hit]) kid ≠ [] →
      kid ∈ groups.map Prod.fst ∨ kid = hit.1.kid := by
    intro kid hne
    rw [groupHits_append] at hne
    by_cases h0 : groupHits processed kid = []
    · rw [h0, List.nil_append] at hne
      by_cases heq : hit.1.kid = kid
      · exact Or.inr heq.symm
      · rw [if_neg heq] at hne
        exact absurd rfl hne
    · exact Or.inl (hcomp kid h0)
  by_cases hmem : hit.1.kid ∈ groups.map Prod.fst
  · have hfst := updateGroups_map_fst vw hit groups hmem
    refine ⟨by rw [hfst]; exact hnd, ?_, ?_⟩
    · intro kg hkg
      rcases updateGroups_entries vw hit groups hnd kg hkg with ⟨h1, h2⟩ | ⟨h1, h2⟩
      · exact hold kg h2 h1
      · rcases h2 with ⟨g, hg, hstep⟩ | ⟨hnm, -⟩
        · obtain ⟨hh1, hh2, hh3, hh4⟩ := hent (hit.1.kid, g) hg
          have happ : groupHits (processed ++ [hit]) kg.1 =
              groupHits processed hit.1.kid ++ [hit] := by
            rw [h1, groupHits_append, if_pos rfl]
          obtain ⟨hs1, hs2, hs3⟩ := stepGroup_spec vw hit g _ hh1 hh2 hh3
          refine ⟨by rw [happ]; simp, ?_, ?_, ?_⟩
          · rw [happ, hstep, hs1]
          · rw [happ, hstep, hs2]
          · rw [hstep, hs3, hh4, h1]
        · exact absurd hmem hnm
    · intro kid hne
      rw [hfst]
      rcases hcompstep kid hne with h | h
      · exact h
      · rw [h]
        exact hmem
  · rw [updateGroups_of_not_mem vw hit groups hmem]
    have hempty : groupHits processed hit.1.kid = [] := by
      by_contra hc
      exact hmem (hcomp _ hc)
    refine ⟨?_, ?_, ?_⟩
    · rw [List.map_append]
      simp only [List.map_cons, List.map_nil]
      rw [List.nodup_append]
      exact ⟨hnd, List.nodup_singleton _, by simpa using hmem⟩
    · intro kg hkg
      rcases List.mem_append.mp hkg with hkg1 | hkg2
      · refine hold kg hkg1 ?_
        intro hc
        exact hmem (hc ▸ List.mem_map.mpr ⟨kg, hkg1, rfl⟩)
      · have hkg3 : kg = (hit.1.kid, newGroup vw hit) := by simpa using hkg2
        subst hkg3
        have happ : groupHits (processed ++ [hit]) hit.1.kid = [hit] := by
          rw [groupHits_append, if_pos rfl, hempty, List.nil_append]
        refine ⟨by rw [happ]; simp, ?_, ?_, rfl⟩
        · rw [happ]
          simp [newGroup, chunksSpec, gchunkOf]
        · rw [happ]
          rfl
    · intro kid hne
      rw [List.map_append]
      rcases hcompstep kid hne with h | h
      · exact List.mem_append.mpr (Or.inl h)
      · refine List.mem_append.mpr (Or.inr ?_)
        simp [h]

theorem groupsInv_fold (vw : ℚ) :
    ∀ (rest processed : List (Doc × ℚ)) (groups : List (String × Group)),
    groupsInv vw processed groups →
    groupsInv vw (processed ++ rest) (rest.foldl (fun gs h => updateGroups vw h gs) groups) := by
  intro rest
  induction rest with
  | nil =>
    intro processed groups h
    simpa using h
  | cons hit t ih =>
    intro processed groups h
    have h2 := ih (processed ++ [hit]) (updateGroups vw hit groups) (groupsInv_step vw processed groups hit h)
    rw [List.append_assoc] at h2
    simpa using h2

theorem buildGroups_inv (vw : ℚ) (results : List (Doc × ℚ)) :
    groupsInv vw results (buildGroups vw results) := by
  have h := groupsInv_fold vw results [] [] (groupsInv_nil vw)
  simpa [buildGroups] using h

end Retriever

namespace Retriever

theorem chunksSpec_index_nodup_aux (vw : ℚ) :
    ∀ (hits : List (Doc × ℚ)) (acc : List GChunk),
    (acc.map (fun c => c.index)).Nodup →
    (((hits.foldl (fun acc h =>
        if (h.1.chunkIndex.getD 0) ∈ acc.map (fun c => c.index) then acc
        else acc ++ [gchunkOf vw h]) acc)).map (fun c => c.index)).Nodup := by
  intro hits
  induction hits with
  | nil => intro acc h; simpa using h
  | cons hit t ih =>
    intro acc hacc
    rw [List.foldl_cons]
    by_cases hmem : (hit.1.chunkIndex.getD 0) ∈ acc.map (fun c => c.index)
    · rw [if_pos hmem]
      exact ih acc hacc
    · rw [if_neg hmem]
      refine ih _ ?_
      rw [List.map_append]
      rw [List.nodup_append]
      refine ⟨hacc, by simp, ?_⟩
      intro a ha hb
      have : a = (gchunkOf vw hit).index := by simpa using hb
      rw [this] at ha
      exact hmem ha

theorem chunksSpec_index_nodup (vw : ℚ) (hits : List (Doc × ℚ)) :
    ((chunksSpec vw hits).map (fun c => c.index)).Nodup :=
  chunksSpec_index_nodup_aux vw hits [] (by simp)

end Retriever

/-- C4: on the GLOBAL (summary) path, the retrieval core groups the
summary-index candidates by document (knowledge id), emits at most top_k
aggregated candidates with pairwise distinct document ids (exactly one per
kept group), every emitted candidate's score is the maximum normalized
score over that document's hits, its passage is the double-newline
concatenation of the group's distinct member chunks' original chunk texts
in strictly ascending chunk-index order regardless of the retrieval rank
order (the concatenated list is a permutation of the distinct collected
chunks with strictly increasing indices), and every kept candidate's score
dominates the maximum score of every document group that was dropped. -/
theorem c4_summary_aggregation (results : List (Retriever.Doc × ℚ)) (topK : Nat) (vw : ℚ) :
    (Retriever.retrieveFromSummaryCore results topK vw).length ≤ topK ∧
    ((Retriever.retrieveFromSummaryCore results topK vw).map (fun c => c.1.kid)).Nodup ∧
    (∀ c ∈ Retriever.retrieveFromSummaryCore results topK vw,
      Retriever.groupHits results c.1.kid ≠ [] ∧
      c.2 = Retriever.maxScoreSpec vw (Retriever.groupHits results c.1.kid) ∧
      ∃ cs : List Retriever.GChunk,
        cs.Perm (Retriever.chunksSpec vw (Retriever.groupHits results c.1.kid)) ∧
        (cs.map (fun ch => ch.index)).Sorted (· < ·) ∧
        c.1.pageContent = Retriever.pyJoinDoubleNL (cs.map (fun ch => ch.content))) ∧
    (∀ c ∈ Retriever.retrieveFromSummaryCore results topK vw,
      ∀ kid : String, Retriever.groupHits results kid ≠ [] →
        kid ∉ (Retriever.retrieveFromSummaryCore results topK vw).map (fun c' => c'.1.kid) →
        Retriever.maxScoreSpec vw (Retriever.groupHits results kid) ≤ c.2) := by
  obtain ⟨hnd, hent, hcomp⟩ := Retriever.buildGroups_inv vw results
  haveI : IsTotal (String × Retriever.Group)
      (fun a b => b.2.maxScore ≤ a.2.maxScore) := ⟨fun a b => le_total _ _⟩
  haveI : IsTrans (String × Retriever.Group)
      (fun a b => b.2.maxScore ≤ a.2.maxScore) := ⟨fun _ _ _ h1 h2 => le_trans h2 h1⟩
  have hperm : (List.insertionSort (fun a b : String × Retriever.Group =>
      b.2.maxScore ≤ a.2.maxScore) (Retriever.buildGroups vw results)).Perm
      (Retriever.buildGroups vw results) := List.perm_insertionSort _ _
  have hsorted := List.sorted_insertionSort
    (fun a b : String × Retriever.Group => b.2.maxScore ≤ a.2.maxScore)
    (Retriever.buildGroups vw results)
  have hout : Retriever.retrieveFromSummaryCore results topK vw =
      ((List.insertionSort (fun a b : String × Retriever.Group =>
        b.2.maxScore ≤ a.2.maxScore) (Retriever.buildGroups vw results)).take topK).map
        (fun kg => (Retriever.aggDoc kg.2
          (List.insertionSort (fun a b : Retriever.GChunk => a.index ≤ b.index) kg.2.chunks),
          kg.2.maxScore)) := rfl
  have hmemgroups : ∀ kg, kg ∈ (List.insertionSort (fun a b : String × Retriever.Group =>
      b.2.maxScore ≤ a.2.maxScore) (Retriever.buildGroups vw results)).take topK →
      kg ∈ Retriever.buildGroups vw results :=
    fun kg h => hperm.mem_iff.mp (List.mem_of_mem_take h)
  have hkid : ∀ (kg : String × Retriever.Group) (cs : List Retriever.GChunk),
      (Retriever.aggDoc kg.2 cs).kid = kg.2.metadata.kid := fun kg cs => rfl
  have hmapkid : (Retriever.retrieveFromSummaryCore results topK vw).map (fun c => c.1.kid) =
      ((List.insertionSort (fun a b : String × Retriever.Group =>
        b.2.maxScore ≤ a.2.maxScore) (Retriever.buildGroups vw results)).take topK).map
        Prod.fst := by
    rw [hout, List.map_map]
    refine List.map_congr_left ?_
    intro kg hkg
    have h4 := (hent kg (hmemgroups kg hkg)).2.2.2
    simpa using h4
  refine ⟨?_, ?_, ?_, ?_⟩
  · rw [hout, List.length_map, List.length_take]
    exact min_le_left _ _
  · rw [hmapkid, List.map_take]
    refine List.Nodup.sublist (List.take_sublist _ _) ?_
    exact (hperm.map Prod.fst).nodup_iff.mpr hnd
  · intro c hc
    rw [hout] at hc
    rcases List.mem_map.mp hc with ⟨kg, hkg, rfl⟩
    obtain ⟨h1, h2, h3, h4⟩ := hent kg (hmemgroups kg hkg)
    have hkidc : (Retriever.aggDoc kg.2
        (List.insertionSort (fun a b : Retriever.GChunk => a.index ≤ b.index)
          kg.2.chunks)).kid = kg.1 := by
      rw [hkid]
      exact h4
    rw [hkidc]
    haveI : IsTotal Retriever.GChunk (fun a b => a.index ≤ b.index) :=
      ⟨fun a b => le_total _ _⟩
    haveI : IsTrans Retriever.GChunk (fun a b => a.index ≤ b.index) :=
      ⟨fun _ _ _ h1 h2 => le_trans h1 h2⟩
    have hcperm : (List.insertionSort (fun a b : Retriever.GChunk => a.index ≤ b.index)
        kg.2.chunks).Perm (Retriever.chunksSpec vw (Retriever.groupHits results kg.1)) := by
      rw [← h2]
      exact List.perm_insertionSort _ _
    refine ⟨h1, h3, ?_⟩
    refine ⟨List.insertionSort (fun a b : Retriever.GChunk => a.index ≤ b.index) kg.2.chunks,
      hcperm, ?_, rfl⟩
    have hle : (List.insertionSort (fun a b : Retriever.GChunk => a.index ≤ b.index)
        kg.2.chunks).Sorted (fun a b => a.index ≤ b.index) :=
      List.sorted_insertionSort _ _
    have hlemap : ((List.insertionSort (fun a b : Retriever.GChunk => a.index ≤ b.index)
        kg.2.chunks).map (fun ch => ch.index)).Sorted (· ≤ ·) := by
      rw [List.Sorted, List.pairwise_map]
      exact hle
    refine hlemap.lt_of_le ?_
    refine (List.Perm.map (fun ch => ch.index) hcperm).nodup_iff.mpr ?_
    exact Retriever.chunksSpec_index_nodup vw _
  · intro c hc kid hkidne hnotin
    rw [hout] at hc
    rcases List.mem_map.mp hc with ⟨kg0, hkg0, rfl⟩
    have hinkeys := hcomp kid hkidne
    rcases List.mem_map.mp hinkeys with ⟨kg', hkg', hfst⟩
    have hkg'sorted : kg' ∈ List.insertionSort (fun a b : String × Retriever.Group =>
        b.2.maxScore ≤ a.2.maxScore) (Retriever.buildGroups vw results) :=
      hperm.mem_iff.mpr hkg'
    rw [← List.take_append_drop topK (List.insertionSort
      (fun a b : String × Retriever.Group => b.2.maxScore ≤ a.2.maxScore)
      (Retriever.buildGroups vw results))] at hkg'sorted
    rcases List.mem_append.mp hkg'sorted with htake | hdrop
    · exfalso
      apply hnotin
      rw [hmapkid]
      rw [← hfst]
      exact List.mem_map.mpr ⟨kg', htake, rfl⟩
    · have hsorted2 : ((List.insertionSort (fun a b : String × Retriever.Group =>
          b.2.maxScore ≤ a.2.maxScore) (Retriever.buildGroups vw results)).take topK ++
          (List.insertionSort (fun a b : String × Retriever.Group =>
          b.2.maxScore ≤ a.2.maxScore) (Retriever.buildGroups vw results)).drop topK).Pairwise
          (fun a b => b.2.maxScore ≤ a.2.maxScore) := by
        rw [List.take_append_drop]
        exact hsorted
      have hrel := (List.pairwise_append.mp hsorted2).2.2 kg0 hkg0 kg' hdrop
      obtain ⟨-, -, h3', -⟩ := hent kg' hkg'
      rw [hfst] at h3'
      rw [← h3']
      exact hrel
